import Mathlib

/-!
Verification of the arena-backed dynamic protobuf message engine described by
the repository specification, against a shallow embedding in Lean 4.

The repository snapshot contains the conformance-test drivers and code
generators, but not the engine itself (wire codec, merge engine, map support);
those components are therefore modelled from the specification text
(sections 3, 4.3, 4.4, 4.5, 7 and 8 of spec.md), faithful to its words:
  - messages are field-number-indexed collections of values plus an
    unknown-field byte buffer;
  - the encoder serializes each present field as a varint tag
    (field_number shifted left by 3, or-ed with the wire type) followed by the
    payload, emits map entries as length-delimited entry messages with
    synthetic field numbers 1 (key) and 2 (value) sorted ascending by key, and
    appends unknown-field bytes verbatim after all known fields;
  - the decoder is a single forward pass that dispatches on field number,
    routes unknown field numbers to the unknown-field buffer as raw bytes,
    fails the whole parse on malformed input (truncated varint, overlong
    declared length, wire-type mismatch, out-of-range integer, invalid UTF-8
    in a string field, recursion deeper than the bounded limit) and never
    returns a partially populated message;
  - merge overwrites scalars, recursively merges submessages, appends
    repeated fields, overwrites map values per key (last write wins) and
    concatenates unknown-field buffers.
Legacy group fields, packed repeated encoding and float/double scalar
payloads are outside the model; the claims under verification do not
involve them.

The Rust code-generator helper DefaultValue (
src/src/google/protobuf/compiler/rust/accessors/helpers.cc) is embedded
directly from its source at the end of the file.
-/

/-! ## Base-128 varints (spec 4.5: little-endian groups, 7 payload bits per
byte, continuation bit on all but the last byte) -/

/-- Fuel-driven varint writer; fuel at least the value itself suffices. -/
def writeVarintAux : Nat → Nat → List Nat
  | 0, n => [n % 128]
  | fuel + 1, n => if n < 128 then [n] else (128 + n % 128) :: writeVarintAux fuel (n / 128)

/-- Standard base-128 little-endian varint encoding of a natural number. -/
def writeVarint (n : Nat) : List Nat := writeVarintAux n n

/-- Reads one varint from the front of the stream; none on truncation. -/
def readVarint : List Nat → Option (Nat × List Nat)
  | [] => none
  | b :: rest =>
    if b < 128 then some (b, rest)
    else
      match readVarint rest with
      | some (n, r) => some (n * 128 + (b - 128), r)
      | none => none

/-- Reads an exact number of raw bytes; none if fewer remain. -/
def readN (n : Nat) (bs : List Nat) : Option (List Nat × List Nat) :=
  if n ≤ bs.length then some (bs.take n, bs.drop n) else none

/-! ## Fixed-width little-endian payloads (wire types 1 and 5) -/

def toLE4 (n : Nat) : List Nat :=
  [n % 256, n / 256 % 256, n / 256 ^ 2 % 256, n / 256 ^ 3 % 256]

def toLE8 (n : Nat) : List Nat :=
  [n % 256, n / 256 % 256, n / 256 ^ 2 % 256, n / 256 ^ 3 % 256,
   n / 256 ^ 4 % 256, n / 256 ^ 5 % 256, n / 256 ^ 6 % 256, n / 256 ^ 7 % 256]

def fromLE (bs : List Nat) : Nat := bs.foldr (fun b acc => acc * 256 + b) 0

/-! ## Two's-complement interpretation of 64-bit varint payloads and the
zig-zag transform (spec 4.5: zig-zag only for sint32/sint64) -/

/-- Unsigned 64-bit wire image of a signed integer. -/
def toU64 (x : Int) : Nat := (x % (2 ^ 64)).toNat

/-- Signed interpretation of an unsigned 64-bit wire value. -/
def fromU64 (n : Nat) : Int := if n < 2 ^ 63 then (n : Int) else (n : Int) - 2 ^ 64

def zigzagEncode (x : Int) : Nat :=
  if 0 ≤ x then (2 * x).toNat else (-(2 * x) - 1).toNat

def zigzagDecode (n : Nat) : Int :=
  if n % 2 = 0 then ((n / 2 : Nat) : Int) else -(((n / 2 : Nat) : Int) + 1)

/-! ## UTF-8 validation (spec 7: invalid UTF-8 in a string field is
MalformedWire; bytes fields are unrestricted) -/

def isCont (b : Nat) : Bool := 128 ≤ b && b < 192

/-- Standard table-driven UTF-8 validity check over raw bytes, rejecting
overlong forms, surrogates and code points beyond U+10FFFF. -/
def validUtf8 : List Nat → Bool
  | [] => true
  | b :: r =>
    if b < 128 then validUtf8 r
    else if b < 194 then false
    else if b < 224 then
      match r with
      | c1 :: r2 => isCont c1 && validUtf8 r2
      | _ => false
    else if b = 224 then
      match r with
      | c1 :: c2 :: r2 => (160 ≤ c1 && c1 < 192) && isCont c2 && validUtf8 r2
      | _ => false
    else if b < 237 then
      match r with
      | c1 :: c2 :: r2 => isCont c1 && isCont c2 && validUtf8 r2
      | _ => false
    else if b = 237 then
      match r with
      | c1 :: c2 :: r2 => (128 ≤ c1 && c1 < 160) && isCont c2 && validUtf8 r2
      | _ => false
    else if b < 240 then
      match r with
      | c1 :: c2 :: r2 => isCont c1 && isCont c2 && validUtf8 r2
      | _ => false
    else if b = 240 then
      match r with
      | c1 :: c2 :: c3 :: r2 => (144 ≤ c1 && c1 < 192) && isCont c2 && isCont c3 && validUtf8 r2
      | _ => false
    else if b < 244 then
      match r with
      | c1 :: c2 :: c3 :: r2 => isCont c1 && isCont c2 && isCont c3 && validUtf8 r2
      | _ => false
    else if b = 244 then
      match r with
      | c1 :: c2 :: c3 :: r2 => (128 ≤ c1 && c1 < 144) && isCont c2 && isCont c3 && validUtf8 r2
      | _ => false
    else false

/-! ## Descriptor model (spec 3: immutable metadata; field number, wire
type, label, sub-message type reference) -/

/-- Scalar/message field types of the model. Message types refer to a
descriptor by index into a type environment, allowing recursive schemas. -/
inductive FieldType where
  | int32
  | int64
  | uint32
  | uint64
  | sint32
  | sint64
  | fixed32
  | fixed64
  | boolType
  | stringType
  | bytesType
  | msgType (idx : Nat)
deriving DecidableEq, Repr

/-- Field label: singular, repeated (non-packed), or a map field with a
scalar key type and arbitrary value type. -/
inductive FieldKind where
  | singular (t : FieldType)
  | repeated (t : FieldType)
  | mapField (keyType valType : FieldType)
deriving DecidableEq, Repr

structure FieldDesc where
  num : Nat
  kind : FieldKind
deriving DecidableEq, Repr

/-- Descriptor of one message type: its ordered field descriptors. -/
abbrev Desc := List FieldDesc

/-- Type environment: all message descriptors, referenced by index. -/
abbrev TypeEnv := List Desc

def descAt (env : TypeEnv) (i : Nat) : Desc := env.getD i []

def findFd (desc : Desc) (n : Nat) : Option FieldDesc :=
  desc.find? (fun fd => fd.num == n)

/-- Wire type of a field type (spec 6: 0 varint, 1 64-bit, 2
length-delimited, 5 32-bit). -/
def wireTypeOf : FieldType → Nat
  | .fixed64 => 1
  | .fixed32 => 5
  | .stringType => 2
  | .bytesType => 2
  | .msgType _ => 2
  | _ => 0

/-- Expected wire type of a whole field slot (map entries travel as
length-delimited entry messages). -/
def kindWireType : FieldKind → Nat
  | .singular t => wireTypeOf t
  | .repeated t => wireTypeOf t
  | .mapField _ _ => 2

/-- Synthetic descriptor of a map entry message: field 1 is the key,
field 2 the value (spec 4.5). -/
def mapEntryDesc (kt vt : FieldType) : Desc :=
  [⟨1, .singular kt⟩, ⟨2, .singular vt⟩]

/-! ## Dynamic value model (spec 3: scalars, submessages with unknown-field
buffers, arrays, maps) -/

/-- Generic field values. A message is a list of field-number/value pairs
plus the raw unknown-field byte buffer. -/
inductive Value where
  | vint : Int → Value
  | vnat : Nat → Value
  | vbool : Bool → Value
  | vbytes : List Nat → Value
  | vmsg : List (Nat × Value) → List Nat → Value
  | vrep : List Value → Value
  | vmap : List (Value × Value) → Value

open Value

/-- Field lookup by number. -/
def getF (fs : List (Nat × Value)) (n : Nat) : Option Value :=
  match fs with
  | [] => none
  | (m, v) :: r => if m = n then some v else getF r n

/-- Field store by number: replaces in place, appends when absent. -/
def setF (fs : List (Nat × Value)) (n : Nat) (v : Value) : List (Nat × Value) :=
  match fs with
  | [] => [(n, v)]
  | (m, w) :: r => if m = n then (m, v) :: r else (m, w) :: setF r n v

/-- Equality test on scalar map keys (message/array/map values never act as
keys under a well-formed descriptor). -/
def keyEqb (a b : Value) : Bool :=
  match a, b with
  | vint x, vint y => x == y
  | vnat x, vnat y => x == y
  | vbool x, vbool y => x == y
  | vbytes x, vbytes y => x == y
  | _, _ => false

/-- Last-write-wins insertion into a map entry list (spec 3). -/
def mapPut (es : List (Value × Value)) (k v : Value) : List (Value × Value) :=
  match es with
  | [] => [(k, v)]
  | (k2, v2) :: r => if keyEqb k2 k then (k2, v) :: r else (k2, v2) :: mapPut r k v

/-- Default value of a field type (spec 4.3: 0, empty string, false, empty
message), used for map entries whose key or value field is absent. -/
def typeDefaultValue : FieldType → Value
  | .int32 => vint 0
  | .int64 => vint 0
  | .sint32 => vint 0
  | .sint64 => vint 0
  | .uint32 => vnat 0
  | .uint64 => vnat 0
  | .fixed32 => vnat 0
  | .fixed64 => vnat 0
  | .boolType => vbool false
  | .stringType => vbytes []
  | .bytesType => vbytes []
  | .msgType _ => vmsg [] []

/-! ## Key ordering for deterministic map serialization (spec 3: numeric
ascending, boolean false before true, lexicographic for strings) -/

/-- Lexicographic byte-string comparison. -/
def bytesLE : List Nat → List Nat → Bool
  | [], _ => true
  | _ :: _, [] => false
  | x :: xs, y :: ys => if x < y then true else if y < x then false else bytesLE xs ys

def valueRank : Value → Nat
  | vint _ => 0
  | vnat _ => 1
  | vbool _ => 2
  | vbytes _ => 3
  | vmsg _ _ => 4
  | vrep _ => 5
  | vmap _ => 6

/-- Natural ordering on map keys: numeric ascending, false before true,
lexicographic bytes; totalized across value shapes by constructor rank. -/
def keyLE (a b : Value) : Bool :=
  match a, b with
  | vint x, vint y => x ≤ y
  | vnat x, vnat y => x ≤ y
  | vbool x, vbool y => !x || y
  | vbytes x, vbytes y => bytesLE x y
  | a, b => valueRank a ≤ valueRank b

/-- Ordering on encoded map entries, by their original key. -/
def entryKeyLE (a b : Value × List Nat) : Prop := keyLE a.1 b.1 = true

instance : DecidableRel entryKeyLE := fun a b => by
  unfold entryKeyLE; infer_instance

/-! ## Wire encoder (spec 4.5: tag varint then payload; repeated fields one
tag-value pair per element; map entries as length-delimited entry messages
sorted ascending by key; unknown bytes appended verbatim after all known
fields). The encoder shares the decoder's bounded-depth structure: nested
message bodies are produced by a sub-encoder one recursion level down. -/

def encTag (n wt : Nat) : List Nat := writeVarint (n * 8 + wt)

def encLenPrefixed (body : List Nat) : List Nat := writeVarint body.length ++ body

/-- Emits already-encoded map entry chunks in ascending order of their
original keys (spec 3: deterministic serialization order). -/
def encSortedEntryChunks (pairs : List (Value × List Nat)) : List Nat :=
  ((List.insertionSort entryKeyLE pairs).map Prod.snd).flatten

/-- Payload encoding of one scalar value of the given scalar type. -/
def encScalarPayload : FieldType → Value → List Nat
  | .int32, .vint x => writeVarint (toU64 x)
  | .int64, .vint x => writeVarint (toU64 x)
  | .sint32, .vint x => writeVarint (zigzagEncode x)
  | .sint64, .vint x => writeVarint (zigzagEncode x)
  | .uint32, .vnat m => writeVarint m
  | .uint64, .vnat m => writeVarint m
  | .fixed32, .vnat m => toLE4 m
  | .fixed64, .vnat m => toLE8 m
  | .boolType, .vbool b => writeVarint (cond b 1 0)
  | .stringType, .vbytes bs => encLenPrefixed bs
  | .bytesType, .vbytes bs => encLenPrefixed bs
  | _, _ => []

/-- An encoder for nested message bodies, one recursion level down. -/
abbrev SubEncode := Desc → List (Nat × Value) → List Nat → List Nat

/-- Payload encoding of one singular value: scalars inline, message values
length-prefixed through the sub-encoder. -/
def encElem (sub : SubEncode) (env : TypeEnv) (t : FieldType) (x : Value) : List Nat :=
  match t, x with
  | .msgType i, .vmsg fs u => encLenPrefixed (sub (descAt env i) fs u)
  | .msgType _, _ => []
  | t2, x2 => encScalarPayload t2 x2

/-- One tag-payload unit per repeated element, in order (non-packed). -/
def encRepList (sub : SubEncode) (env : TypeEnv) (n : Nat) (t : FieldType) :
    List Value → List Nat
  | [] => []
  | x :: xs => encTag n (wireTypeOf t) ++ encElem sub env t x ++ encRepList sub env n t xs

/-- Encodes each map entry as a length-delimited entry message with
synthetic fields 1 (key) and 2 (value), keeping the original key beside the
chunk for subsequent sorting. -/
def encEntryPairs (sub : SubEncode) (env : TypeEnv) (n : Nat) (kt vt : FieldType) :
    List (Value × Value) → List (Value × List Nat)
  | [] => []
  | (k, v) :: rest =>
    (k, encTag n 2 ++ encLenPrefixed (sub (mapEntryDesc kt vt) [(1, k), (2, v)] [])) ::
      encEntryPairs sub env n kt vt rest

/-- Encodes one present field as its wire units. -/
def encFieldVal (sub : SubEncode) (env : TypeEnv) (desc : Desc) (n : Nat) (v : Value) :
    List Nat :=
  match findFd desc n with
  | none => []
  | some fd =>
    match fd.kind, v with
    | .singular t, w => encTag n (wireTypeOf t) ++ encElem sub env t w
    | .repeated t, .vrep xs => encRepList sub env n t xs
    | .mapField kt vt, .vmap es => encSortedEntryChunks (encEntryPairs sub env n kt vt es)
    | _, _ => []

/-- Encodes the present fields of a message in their storage order. -/
def encFieldList (sub : SubEncode) (env : TypeEnv) (desc : Desc) :
    List (Nat × Value) → List Nat
  | [] => []
  | (n, v) :: rest => encFieldVal sub env desc n v ++ encFieldList sub env desc rest

/-- Encodes one message body within a bounded nesting depth: known fields
first, then the unknown-field buffer verbatim (spec 4.5). -/
def encFieldsAt (env : TypeEnv) : Nat → Desc → List (Nat × Value) → List Nat → List Nat
  | 0, _, _, _ => []
  | d + 1, desc, fs, u => encFieldList (encFieldsAt env d) env desc fs ++ u

/-! ## Wire decoder (spec 4.5, 7: single forward pass, dispatch by field
number, unknown numbers retained as raw bytes, typed errors, whole-parse
failure, bounded recursion depth) -/

/-- Typed parse errors (spec 7: the MalformedWire taxonomy). -/
inductive DecodeError where
  | truncated
  | badLength
  | badWireType
  | tooDeep
  | outOfRange
  | badUtf8
  | fuelExhausted
deriving DecidableEq, Repr

/-- Reads one scalar payload of the given type from the stream, enforcing
the value range of the target field (spec 7: no silent truncation of
out-of-range numeric input) and UTF-8 validity of string fields. -/
def readPayloadScalar (t : FieldType) (bs : List Nat) :
    Except DecodeError (Value × List Nat) :=
  match t with
  | .int32 =>
    match readVarint bs with
    | none => .error .truncated
    | some (w, r) =>
      if w < 2 ^ 64 then
        if -(2 ^ 31) ≤ fromU64 w ∧ fromU64 w < 2 ^ 31 then .ok (vint (fromU64 w), r)
        else .error .outOfRange
      else .error .outOfRange
  | .int64 =>
    match readVarint bs with
    | none => .error .truncated
    | some (w, r) => if w < 2 ^ 64 then .ok (vint (fromU64 w), r) else .error .outOfRange
  | .sint32 =>
    match readVarint bs with
    | none => .error .truncated
    | some (w, r) => if w < 2 ^ 32 then .ok (vint (zigzagDecode w), r) else .error .outOfRange
  | .sint64 =>
    match readVarint bs with
    | none => .error .truncated
    | some (w, r) => if w < 2 ^ 64 then .ok (vint (zigzagDecode w), r) else .error .outOfRange
  | .uint32 =>
    match readVarint bs with
    | none => .error .truncated
    | some (w, r) => if w < 2 ^ 32 then .ok (vnat w, r) else .error .outOfRange
  | .uint64 =>
    match readVarint bs with
    | none => .error .truncated
    | some (w, r) => if w < 2 ^ 64 then .ok (vnat w, r) else .error .outOfRange
  | .fixed32 =>
    match readN 4 bs with
    | none => .error .truncated
    | some (c, r) => .ok (vnat (fromLE c), r)
  | .fixed64 =>
    match readN 8 bs with
    | none => .error .truncated
    | some (c, r) => .ok (vnat (fromLE c), r)
  | .boolType =>
    match readVarint bs with
    | none => .error .truncated
    | some (w, r) => .ok (vbool (w != 0), r)
  | .stringType =>
    match readVarint bs with
    | none => .error .truncated
    | some (len, r) =>
      match readN len r with
      | none => .error .badLength
      | some (c, r2) => if validUtf8 c then .ok (vbytes c, r2) else .error .badUtf8
  | .bytesType =>
    match readVarint bs with
    | none => .error .truncated
    | some (len, r) =>
      match readN len r with
      | none => .error .badLength
      | some (c, r2) => .ok (vbytes c, r2)
  | .msgType _ => .error .badWireType

/-- Partially decoded message: fields so far plus unknown-field bytes. -/
abbrev DAcc := List (Nat × Value) × List Nat

/-- A decoder for nested message bodies, one recursion level down. -/
abbrev SubDecode := Desc → List Nat → DAcc → Except DecodeError DAcc

/-- Current repeated-element list stored at a field number, if any. -/
def repCur (fs : List (Nat × Value)) (n : Nat) : List Value :=
  match getF fs n with
  | some (.vrep xs) => xs
  | _ => []

/-- Current map entry list stored at a field number, if any. -/
def mapCur (fs : List (Nat × Value)) (n : Nat) : List (Value × Value) :=
  match getF fs n with
  | some (.vmap es) => es
  | _ => []

/-- Current submessage stored at a field number, if any (spec 4.5: a second
occurrence of a singular message field merges into the first). -/
def msgCur (fs : List (Nat × Value)) (n : Nat) : DAcc :=
  match getF fs n with
  | some (.vmsg g u) => (g, u)
  | _ => ([], [])

/-- Decodes one tag-payload unit from the front of the stream and folds it
into the accumulated message. -/
def decodeUnit (sub : SubDecode) (env : TypeEnv) (desc : Desc) (bs : List Nat) (acc : DAcc) :
    Except DecodeError (DAcc × List Nat) :=
  match readVarint bs with
  | none => .error .truncated
  | some (tag, r1) =>
    match findFd desc (tag / 8) with
    | none =>
      -- unknown field number: skip the payload by wire type and retain the
      -- raw sub-encoding verbatim (spec 4.5 forward-compatibility contract)
      match tag % 8 with
      | 0 =>
        match readVarint r1 with
        | none => .error .truncated
        | some (_, r2) => .ok ((acc.1, acc.2 ++ bs.take (bs.length - r2.length)), r2)
      | 1 =>
        match readN 8 r1 with
        | none => .error .truncated
        | some (_, r2) => .ok ((acc.1, acc.2 ++ bs.take (bs.length - r2.length)), r2)
      | 2 =>
        match readVarint r1 with
        | none => .error .truncated
        | some (len, r2) =>
          match readN len r2 with
          | none => .error .badLength
          | some (_, r3) => .ok ((acc.1, acc.2 ++ bs.take (bs.length - r3.length)), r3)
      | 5 =>
        match readN 4 r1 with
        | none => .error .truncated
        | some (_, r2) => .ok ((acc.1, acc.2 ++ bs.take (bs.length - r2.length)), r2)
      | _ => .error .badWireType
    | some fd =>
      match fd.kind with
      | .singular t =>
        if tag % 8 ≠ wireTypeOf t then .error .badWireType
        else
          match t with
          | .msgType i =>
            match readVarint r1 with
            | none => .error .truncated
            | some (len, r2) =>
              match readN len r2 with
              | none => .error .badLength
              | some (chunk, r3) =>
                match sub (descAt env i) chunk (msgCur acc.1 fd.num) with
                | .error e => .error e
                | .ok (fs, u) => .ok ((setF acc.1 fd.num (vmsg fs u), acc.2), r3)
          | _ =>
            match readPayloadScalar t r1 with
            | .error e => .error e
            | .ok (v, r2) => .ok ((setF acc.1 fd.num v, acc.2), r2)
      | .repeated t =>
        if tag % 8 ≠ wireTypeOf t then .error .badWireType
        else
          match t with
          | .msgType i =>
            match readVarint r1 with
            | none => .error .truncated
            | some (len, r2) =>
              match readN len r2 with
              | none => .error .badLength
              | some (chunk, r3) =>
                match sub (descAt env i) chunk ([], []) with
                | .error e => .error e
                | .ok (fs, u) =>
                  .ok ((setF acc.1 fd.num (vrep (repCur acc.1 fd.num ++ [vmsg fs u])), acc.2), r3)
          | _ =>
            match readPayloadScalar t r1 with
            | .error e => .error e
            | .ok (v, r2) =>
              .ok ((setF acc.1 fd.num (vrep (repCur acc.1 fd.num ++ [v])), acc.2), r2)
      | .mapField kt vt =>
        if tag % 8 ≠ 2 then .error .badWireType
        else
          match readVarint r1 with
          | none => .error .truncated
          | some (len, r2) =>
            match readN len r2 with
            | none => .error .badLength
            | some (chunk, r3) =>
              match sub (mapEntryDesc kt vt) chunk ([], []) with
              | .error e => .error e
              | .ok (efs, _) =>
                let k := (getF efs 1).getD (typeDefaultValue kt)
                let v := (getF efs 2).getD (typeDefaultValue vt)
                .ok ((setF acc.1 fd.num (vmap (mapPut (mapCur acc.1 fd.num) k v)), acc.2), r3)

/-- Forward decode loop over one message body; the fuel argument only
bounds the iteration count and is decremented exactly once per unit. -/
def decodeLoop (sub : SubDecode) (env : TypeEnv) (desc : Desc) :
    Nat → List Nat → DAcc → Except DecodeError DAcc
  | 0, _, _ => .error .fuelExhausted
  | _ + 1, [], acc => .ok acc
  | fuel + 1, b :: bs, acc =>
    match decodeUnit sub env desc (b :: bs) acc with
    | .error e => .error e
    | .ok (acc2, rest) => decodeLoop sub env desc fuel rest acc2

/-- Decodes one message body with a bounded nesting depth; depth 0 signals
that the bounded recursion limit has been exceeded (spec 5). -/
def decodeMsgBody (env : TypeEnv) : Nat → Desc → List Nat → DAcc → Except DecodeError DAcc
  | 0, _, _, _ => .error .tooDeep
  | d + 1, desc, bs, acc => decodeLoop (decodeMsgBody env d) env desc (bs.length + 1) bs acc

/-- Fixed maximum nesting depth of the decoder (spec 5: a fixed maximum
nesting depth bounds stack usage). -/
def kRecursionLimit : Nat := 100

/-- Top-level decode of a byte stream into a fresh message. -/
def decode (env : TypeEnv) (desc : Desc) (bs : List Nat) : Except DecodeError DAcc :=
  decodeMsgBody env (kRecursionLimit + 1) desc bs ([], [])

/-- Top-level whole-message encoding at the same depth budget. -/
def encode (env : TypeEnv) (desc : Desc) (fs : List (Nat × Value)) (u : List Nat) : List Nat :=
  encFieldsAt env (kRecursionLimit + 1) desc fs u

/-! ## Validity of in-memory messages with respect to a descriptor -/

/-- Range/shape validity of one scalar value for a scalar field type. -/
def validScalar : FieldType → Value → Bool
  | .int32, .vint x => -(2 ^ 31) ≤ x && x < 2 ^ 31
  | .int64, .vint x => -(2 ^ 63) ≤ x && x < 2 ^ 63
  | .sint32, .vint x => -(2 ^ 31) ≤ x && x < 2 ^ 31
  | .sint64, .vint x => -(2 ^ 63) ≤ x && x < 2 ^ 63
  | .uint32, .vnat m => m < 2 ^ 32
  | .uint64, .vnat m => m < 2 ^ 64
  | .fixed32, .vnat m => m < 2 ^ 32
  | .fixed64, .vnat m => m < 2 ^ 64
  | .boolType, .vbool _ => true
  | .stringType, .vbytes bs => validUtf8 bs
  | .bytesType, .vbytes bs => bs.all (fun b => b < 256)
  | _, _ => false

/-- Legal map key types (spec 3: scalar keys). -/
def isScalarKeyType : FieldType → Bool
  | .int32 => true
  | .int64 => true
  | .uint32 => true
  | .uint64 => true
  | .sint32 => true
  | .sint64 => true
  | .fixed32 => true
  | .fixed64 => true
  | .boolType => true
  | .stringType => true
  | _ => false

def numAbsent (n : Nat) (fs : List (Nat × Value)) : Bool :=
  fs.all (fun p => p.1 != n)

def entryKeyAbsent (k : Value) (es : List (Value × Value)) : Bool :=
  es.all (fun e => !keyEqb e.1 k)

def entryKeysNodup : List (Value × Value) → Bool
  | [] => true
  | (k, _) :: r => entryKeyAbsent k r && entryKeysNodup r

/-- A validity checker for message bodies one recursion level down. -/
abbrev SubChecker := Desc → List (Nat × Value) → List Nat → Bool

/-- Validity of one singular payload value: scalar values must satisfy the
declared range and shape, message values are delegated to the sub-checker. -/
def validElem (sub : SubChecker) (env : TypeEnv) (t : FieldType) (x : Value) : Bool :=
  match t, x with
  | .msgType i, .vmsg fs u => sub (descAt env i) fs u
  | .msgType _, _ => false
  | t2, x2 => validScalar t2 x2

/-- Element-wise validity of a repeated field's values. -/
def validElemList (sub : SubChecker) (env : TypeEnv) (t : FieldType) : List Value → Bool
  | [] => true
  | x :: xs => validElem sub env t x && validElemList sub env t xs

/-- Entry-wise validity of a map field: each entry must be valid as the
synthetic two-field entry message the wire format uses for it. -/
def validEntryList (sub : SubChecker) (env : TypeEnv) (kt vt : FieldType) :
    List (Value × Value) → Bool
  | [] => true
  | (k, v) :: rest =>
    sub (mapEntryDesc kt vt) [(1, k), (2, v)] [] && validEntryList sub env kt vt rest

/-- Validity of one stored field against its descriptor entry: the field
must have a descriptor, carry a value of the declared shape, and repeated
and map fields must be nonempty (absence is the canonical representation
of emptiness) with unique scalar map keys. -/
def validField (sub : SubChecker) (env : TypeEnv) (desc : Desc) (n : Nat) (v : Value) : Bool :=
  match findFd desc n with
  | none => false
  | some fd =>
    match fd.kind, v with
    | .singular t, w => validElem sub env t w
    | .repeated t, .vrep xs => !xs.isEmpty && validElemList sub env t xs
    | .mapField kt vt, .vmap es =>
      !es.isEmpty && isScalarKeyType kt && entryKeysNodup es &&
        validEntryList sub env kt vt es
    | _, _ => false

/-- Checks a field list against a descriptor: every stored field is valid
and field numbers are unique. Nested message bodies are delegated to the
sub-checker. -/
def validFieldList (sub : SubChecker) (env : TypeEnv) (desc : Desc) :
    List (Nat × Value) → Bool
  | [] => true
  | (n, v) :: rest =>
    validField sub env desc n v && numAbsent n rest && validFieldList sub env desc rest

/-- Checks that an unknown-field buffer is a well-formed sequence of
tag-payload units whose field numbers are absent from the descriptor and
whose wire types are 0, 1, 2 or 5. -/
def checkUnknownLoop (desc : Desc) : Nat → List Nat → Bool
  | _, [] => true
  | 0, _ :: _ => false
  | fuel + 1, b :: bs =>
    match readVarint (b :: bs) with
    | none => false
    | some (tag, r1) =>
      (findFd desc (tag / 8)).isNone &&
      (match tag % 8 with
       | 0 =>
         match readVarint r1 with
         | none => false
         | some (_, r2) => checkUnknownLoop desc fuel r2
       | 1 =>
         match readN 8 r1 with
         | none => false
         | some (_, r2) => checkUnknownLoop desc fuel r2
       | 2 =>
         match readVarint r1 with
         | none => false
         | some (len, r2) =>
           match readN len r2 with
           | none => false
           | some (_, r3) => checkUnknownLoop desc fuel r3
       | 5 =>
         match readN 4 r1 with
         | none => false
         | some (_, r2) => checkUnknownLoop desc fuel r2
       | _ => false)

def checkUnknown (desc : Desc) (u : List Nat) : Bool :=
  checkUnknownLoop desc (u.length + 1) u

/-- Validity of a message body at a given nesting-depth budget, mirroring
the decoder's depth accounting exactly. -/
def validFieldsAt (env : TypeEnv) : Nat → Desc → List (Nat × Value) → List Nat → Bool
  | 0, _, _, _ => false
  | d + 1, desc, fs, u =>
    validFieldList (validFieldsAt env d) env desc fs && checkUnknown desc u

/-- Validity of a top-level message: decodable within the recursion limit. -/
def validMessage (env : TypeEnv) (desc : Desc) (fs : List (Nat × Value)) (u : List Nat) : Bool :=
  validFieldsAt env (kRecursionLimit + 1) desc fs u

/-! ## Merge (spec 4.4: scalar fields merge by overwrite, submessage fields
by recursive merge, repeated fields by append, map fields by per-key
overwrite with the source value winning; unknown-field buffers are
concatenated, destination bytes first) -/

/-- Map-entry lookup by key equality. -/
def getEntry (es : List (Value × Value)) (k : Value) : Option Value :=
  match es with
  | [] => none
  | (k2, v2) :: r => if keyEqb k2 k then some v2 else getEntry r k

/-- Whether a key occurs in an entry list. -/
def containsKeyb (es : List (Value × Value)) (k : Value) : Bool :=
  es.any (fun e => keyEqb e.1 k)

/-- Per-key overwrite of every source entry into a destination entry list
(spec 4.4: source value wins on key collision). -/
def putAll (de : List (Value × Value)) (se : List (Value × Value)) :
    List (Value × Value) :=
  se.foldl (fun acc e => mapPut acc e.1 e.2) de

mutual

/-- Merge one source value onto a destination value (spec 4.4): scalars
overwrite, submessages merge recursively with unknown buffers concatenated
(destination first), repeated fields append source elements after
destination elements, maps overwrite per key. A destination of a different
shape is overwritten by the source. -/
def mergeValue : Value → Value → Value
  | .vint x, _ => .vint x
  | .vnat x, _ => .vnat x
  | .vbool x, _ => .vbool x
  | .vbytes x, _ => .vbytes x
  | .vmsg sf su, dv =>
    match dv with
    | .vmsg df du => .vmsg (mergeFields sf df) (du ++ su)
    | _ => .vmsg sf su
  | .vrep sx, dv =>
    match dv with
    | .vrep dx => .vrep (dx ++ sx)
    | _ => .vrep sx
  | .vmap se, dv =>
    match dv with
    | .vmap de => .vmap (putAll de se)
    | _ => .vmap se

/-- Merge every source field into the destination field list: a field
already present in the destination is merged value-onto-value in place, an
absent field is appended. -/
def mergeFields : List (Nat × Value) → List (Nat × Value) → List (Nat × Value)
  | [], dst => dst
  | (n, v) :: r, dst =>
    mergeFields r
      (match getF dst n with
       | some dv => setF dst n (mergeValue v dv)
       | none => dst ++ [(n, v)])

end

/-- Merge a source message into a destination message (spec 4.4
merge_into): fields merged field-by-field, unknown buffers concatenated
with the destination bytes first. -/
def mergeMsg (src dst : List (Nat × Value) × List Nat) :
    List (Nat × Value) × List Nat :=
  (mergeFields src.1 dst.1, dst.2 ++ src.2)

/-- Field numbers of a field list are pairwise distinct. -/
def nodupNums : List (Nat × Value) → Bool
  | [] => true
  | (n, _) :: r => numAbsent n r && nodupNums r

/-- The claim's precondition on the source message, read literally: the
message contains no repeated fields anywhere (depth-bounded). -/
def noRepV : Nat → Value → Bool
  | _, .vint _ => true
  | _, .vnat _ => true
  | _, .vbool _ => true
  | _, .vbytes _ => true
  | 0, .vmsg _ _ => false
  | d + 1, .vmsg fs _ => fs.all (fun p => noRepV d p.2)
  | _, .vrep _ => false
  | _, .vmap _ => true

/-- Source messages on which merge is idempotent: no repeated fields,
unique field numbers, every unknown buffer empty, map keys scalar and
pairwise distinct, recursively (depth-bounded). -/
def mergeSafeV : Nat → Value → Bool
  | _, .vint _ => true
  | _, .vnat _ => true
  | _, .vbool _ => true
  | _, .vbytes _ => true
  | 0, .vmsg _ _ => false
  | d + 1, .vmsg fs u =>
    fs.all (fun p => mergeSafeV d p.2) && nodupNums fs && decide (u = [])
  | _, .vrep _ => false
  | _, .vmap es => entryKeysNodup es && es.all (fun e => keyEqb e.1 e.1)

/-! ## Default-value models (spec 4.3, and the Rust-codegen DefaultValue
helper in src/google/protobuf/compiler/rust/accessors/helpers.cc) -/

/-- Declared syntax of the enclosing file (spec 4.3). -/
inductive SynKind where
  | proto2
  | proto3
  | editions
deriving DecidableEq

/-- Modelled from the spec: the default value a field reports when unset —
proto3 files use the implicit type default, proto2 and editions files honor
the explicit field-level default recorded in the descriptor. -/
def fieldDefault (syn : SynKind) (t : FieldType) (recorded : Value) : Value :=
  match syn with
  | .proto3 => typeDefaultValue t
  | .proto2 => recorded
  | .editions => recorded

/-- The FieldDescriptor::Type enumeration (descriptor.h), as matched by the
DefaultValue switch in rust/accessors/helpers.cc. -/
inductive FDType where
  | tDouble
  | tFloat
  | tInt32
  | tInt64
  | tUint32
  | tUint64
  | tSint32
  | tSint64
  | tFixed32
  | tFixed64
  | tSfixed32
  | tSfixed64
  | tBool
  | tString
  | tBytes
  | tEnum
  | tGroup
  | tMessage
deriving DecidableEq

/-- IEEE-754 classification of a stored floating default, as probed by the
isfinite / isnan / +inf / -inf chain in DefaultValue. Every IEEE value
falls in exactly one class, so the chain's trailing branch is unreachable;
a finite value carries its SimpleDtoa/SimpleFtoa rendering. -/
inductive FloatClass where
  | finite (repr : String)
  | nan
  | inf
  | negInf

/-- The slice of FieldDescriptor that DefaultValue reads: the field type
and the recorded default accessors for each kind. -/
structure RsField where
  ftype : FDType
  defaultDouble : FloatClass
  defaultFloat : FloatClass
  defaultInt32 : Int
  defaultInt64 : Int
  defaultUint32 : Nat
  defaultUint64 : Nat
  defaultBool : Bool
  defaultStr : List Nat
  enumTypePath : String
  enumValueName : String

/-- One hex digit, lowercase. -/
def hexDigitChar (n : Nat) : Char :=
  if n < 10 then Char.ofNat (48 + n) else Char.ofNat (87 + n)

/-- absl::CHexEscape on the default string bytes: printable characters
other than quote and backslash pass through, everything else becomes a
two-digit hex escape. -/
def cHexEscape (bs : List Nat) : String :=
  String.mk (bs.flatMap (fun b =>
    if 32 ≤ b && b < 127 && b != 34 && b != 92 then [Char.ofNat b]
    else [Char.ofNat 92, Char.ofNat 120, hexDigitChar (b / 16 % 16),
      hexDigitChar (b % 16)]))

/-- DefaultValue from rust/accessors/helpers.cc: renders the field's
recorded default as a Rust literal, switching on the descriptor field
type; the TYPE_GROUP/TYPE_MESSAGE arm hits ABSL_LOG(FATAL), modelled as
none. -/
def DefaultValue (f : RsField) : Option String :=
  match f.ftype with
  | .tDouble =>
    match f.defaultDouble with
    | .finite r => some (r ++ "f64")
    | .nan => some "f64::NAN"
    | .inf => some "f64::INFINITY"
    | .negInf => some "f64::NEG_INFINITY"
  | .tFloat =>
    match f.defaultFloat with
    | .finite r => some (r ++ "f32")
    | .nan => some "f32::NAN"
    | .inf => some "f32::INFINITY"
    | .negInf => some "f32::NEG_INFINITY"
  | .tInt32 => some (toString f.defaultInt32)
  | .tSfixed32 => some (toString f.defaultInt32)
  | .tSint32 => some (toString f.defaultInt32)
  | .tInt64 => some (toString f.defaultInt64)
  | .tSfixed64 => some (toString f.defaultInt64)
  | .tSint64 => some (toString f.defaultInt64)
  | .tFixed64 => some (toString f.defaultUint64)
  | .tUint64 => some (toString f.defaultUint64)
  | .tFixed32 => some (toString f.defaultUint32)
  | .tUint32 => some (toString f.defaultUint32)
  | .tBool => some (if f.defaultBool then "true" else "false")
  | .tString => some ("b\x22" ++ cHexEscape f.defaultStr ++ "\x22")
  | .tBytes => some ("b\x22" ++ cHexEscape f.defaultStr ++ "\x22")
  | .tEnum => some (f.enumTypePath ++ "::" ++ f.enumValueName)
  | .tGroup => none
  | .tMessage => none

/-! ## Concrete descriptors and messages used to instantiate the claims -/

/-- A descriptor exercising every field shape: int32, string, repeated
uint32, an int32-to-string map, and a submessage of the same type. -/
def d0 : Desc := [⟨1, .singular .int32⟩, ⟨2, .singular .stringType⟩,
  ⟨3, .repeated .uint32⟩, ⟨4, .mapField .int32 .stringType⟩,
  ⟨5, .singular (.msgType 0)⟩]

def e0 : TypeEnv := [d0]

/-- A message over d0 with its map populated out of key order. -/
def m0 : List (Nat × Value) := [(1, .vint (-5)), (2, .vbytes [104, 105]),
  (3, .vrep [.vnat 7, .vnat 300]),
  (4, .vmap [(.vint 3, .vbytes [99]), (.vint 1, .vbytes [97])]),
  (5, .vmsg [(1, .vint 42)] [])]

/-- An unknown-field buffer: field 9 as varint 5, field 10 as two
length-delimited bytes; neither number occurs in d0. -/
def u0 : List Nat := [72, 5, 82, 2, 1, 2]

/-- A single optional int32 field, as in the boundary-value tests. -/
def d6 : Desc := [⟨1, .singular .int32⟩]

/-- One string field and one bytes field, as in the UTF-8 tests. -/
def d7 : Desc := [⟨1, .singular .stringType⟩, ⟨2, .singular .bytesType⟩]

/-- A string-keyed map field, as in the map-ordering tests. -/
def dC3 : Desc := [⟨1, .mapField .stringType .uint32⟩]

/-- A self-nesting message type for the recursion-depth tests. -/
def envN : TypeEnv := [[⟨1, .singular (.msgType 0)⟩]]

/-- The wire bytes of a message chain nested k levels deep. -/
def nestBytes : Nat → List Nat
  | 0 => []
  | k + 1 => encTag 1 2 ++ writeVarint (nestBytes k).length ++ nestBytes k

/-- The in-memory message chain nested k levels deep. -/
def nestVal : Nat → List (Nat × Value)
  | 0 => []
  | k + 1 => [(1, .vmsg (nestVal k) [])]

/-- One encoded map-entry unit at the top-level depth budget. -/
def mapEntryUnitBytes (env : TypeEnv) (n : Nat) (kt vt : FieldType)
    (k v : Value) : List Nat :=
  encTag n 2 ++
    encLenPrefixed (encFieldsAt env kRecursionLimit (mapEntryDesc kt vt)
      [(1, k), (2, v)] [])

/-! ## Varint and payload reader lemmas -/

theorem readVarint_writeVarintAux (fuel : Nat) :
    ∀ n rest, n ≤ fuel → readVarint (writeVarintAux fuel n ++ rest) = some (n, rest) := by
  induction fuel with
  | zero =>
    intro n rest hn
    have : n = 0 := by omega
    subst this
    simp [writeVarintAux, readVarint]
  | succ fuel ih =>
    intro n rest hn
    rw [writeVarintAux]
    by_cases h : n < 128
    · simp [h, readVarint]
    · have hd : n / 128 ≤ fuel := by
        have : n / 128 < n := Nat.div_lt_self (by omega) (by omega)
        omega
      simp only [if_neg h, List.cons_append, readVarint]
      have h2 : ¬ (128 + n % 128 < 128) := by omega
      simp only [if_neg h2, ih _ rest hd]
      have h3 : n / 128 * 128 + (128 + n % 128 - 128) = n := by omega
      simp
      omega

theorem readVarint_writeVarint (n : Nat) (rest : List Nat) :
    readVarint (writeVarint n ++ rest) = some (n, rest) :=
  readVarint_writeVarintAux n n rest (Nat.le_refl n)

theorem writeVarintAux_ne_nil (fuel n : Nat) : writeVarintAux fuel n ≠ [] := by
  cases fuel with
  | zero => simp [writeVarintAux]
  | succ fuel =>
    rw [writeVarintAux]
    by_cases h : n < 128 <;> simp [h]

theorem writeVarint_ne_nil (n : Nat) : writeVarint n ≠ [] :=
  writeVarintAux_ne_nil n n

theorem readVarint_length : ∀ (bs : List Nat) (n : Nat) (r : List Nat),
    readVarint bs = some (n, r) → r.length < bs.length := by
  intro bs
  induction bs with
  | nil => intro n r h; simp [readVarint] at h
  | cons b rest ih =>
    intro n r h
    rw [readVarint] at h
    by_cases hb : b < 128
    · simp [hb] at h
      simp [h.2.symm]
    · simp only [if_neg hb] at h
      cases hr : readVarint rest with
      | none => rw [hr] at h; simp at h
      | some p =>
        rw [hr] at h
        obtain ⟨m, r2⟩ := p
        simp at h
        have := ih m r2 hr
        simp [← h.2]
        omega

theorem readVarint_append : ∀ (bs : List Nat) (n : Nat) (r tail : List Nat),
    readVarint bs = some (n, r) → readVarint (bs ++ tail) = some (n, r ++ tail) := by
  intro bs
  induction bs with
  | nil => intro n r tail h; simp [readVarint] at h
  | cons b rest ih =>
    intro n r tail h
    rw [readVarint] at h
    rw [List.cons_append, readVarint]
    by_cases hb : b < 128
    · simp [hb] at h ⊢
      exact ⟨h.1, by rw [h.2]⟩
    · simp only [if_neg hb] at h ⊢
      cases hr : readVarint rest with
      | none => rw [hr] at h; simp at h
      | some p =>
        obtain ⟨m, r2⟩ := p
        rw [hr] at h
        simp at h
        rw [ih m r2 tail hr]
        simp [h.1.symm, h.2]

theorem readN_exact (xs rest : List Nat) :
    readN xs.length (xs ++ rest) = some (xs, rest) := by
  unfold readN
  have hle : xs.length ≤ (xs ++ rest).length := by simp
  rw [if_pos hle]
  simp

theorem readN_append (k : Nat) : ∀ (bs c r tail : List Nat),
    readN k bs = some (c, r) → readN k (bs ++ tail) = some (c, r ++ tail) := by
  intro bs c r tail h
  unfold readN at h ⊢
  by_cases hk : k ≤ bs.length
  · rw [if_pos hk] at h
    simp at h
    have hk2 : k ≤ (bs ++ tail).length := by simp; omega
    rw [if_pos hk2]
    simp [List.take_append_of_le_length hk, List.drop_append_of_le_length hk, h.1, ← h.2]
  · rw [if_neg hk] at h; simp at h

theorem readN_length (k : Nat) (bs c r : List Nat) :
    readN k bs = some (c, r) → r.length ≤ bs.length := by
  intro h
  unfold readN at h
  by_cases hk : k ≤ bs.length
  · rw [if_pos hk] at h
    simp at h
    simp [← h.2]
  · rw [if_neg hk] at h; simp at h

/-! ## Integer representation lemmas -/

theorem toU64_lt (x : Int) : toU64 x < 2 ^ 64 := by
  unfold toU64
  omega

theorem fromU64_toU64 (x : Int) (h1 : -(2 ^ 63) ≤ x) (h2 : x < 2 ^ 63) :
    fromU64 (toU64 x) = x := by
  unfold fromU64 toU64
  omega

theorem zigzagDecode_encode (x : Int) : zigzagDecode (zigzagEncode x) = x := by
  unfold zigzagDecode zigzagEncode
  by_cases h : 0 ≤ x
  · rw [if_pos h]
    omega
  · rw [if_neg h]
    omega

theorem zigzagEncode_lt32 (x : Int) (h1 : -(2 ^ 31) ≤ x) (h2 : x < 2 ^ 31) :
    zigzagEncode x < 2 ^ 32 := by
  unfold zigzagEncode
  by_cases h : 0 ≤ x
  · rw [if_pos h]; omega
  · rw [if_neg h]; omega

theorem zigzagEncode_lt64 (x : Int) (h1 : -(2 ^ 63) ≤ x) (h2 : x < 2 ^ 63) :
    zigzagEncode x < 2 ^ 64 := by
  unfold zigzagEncode
  by_cases h : 0 ≤ x
  · rw [if_pos h]; omega
  · rw [if_neg h]; omega

theorem fromLE_toLE4 (m : Nat) (h : m < 2 ^ 32) : fromLE (toLE4 m) = m := by
  simp [fromLE, toLE4]
  omega

theorem fromLE_toLE8 (m : Nat) (h : m < 2 ^ 64) : fromLE (toLE8 m) = m := by
  simp [fromLE, toLE8]
  omega

theorem toLE4_length (m : Nat) : (toLE4 m).length = 4 := by simp [toLE4]

theorem toLE8_length (m : Nat) : (toLE8 m).length = 8 := by simp [toLE8]

/-! ## Scalar payload roundtrip -/

open Value in
theorem readPayloadScalar_enc (t : FieldType) (v : Value) (rest : List Nat)
    (hv : validScalar t v = true) :
    readPayloadScalar t (encScalarPayload t v ++ rest) = .ok (v, rest) := by
  cases t <;> cases v <;> simp [validScalar] at hv <;>
    simp only [encScalarPayload, readPayloadScalar]
  case int32.vint x =>
    rw [readVarint_writeVarint]
    have h2 : fromU64 (toU64 x) = x := fromU64_toU64 x (by omega) (by omega)
    have h1 : toU64 x < 18446744073709551616 := toU64_lt x
    simp [h1, h2, hv.1, hv.2]
  case int64.vint x =>
    rw [readVarint_writeVarint]
    have h2 : fromU64 (toU64 x) = x := fromU64_toU64 x hv.1 hv.2
    have h1 : toU64 x < 18446744073709551616 := toU64_lt x
    simp [h1, h2]
  case sint32.vint x =>
    rw [readVarint_writeVarint]
    have h1 : zigzagEncode x < 4294967296 := zigzagEncode_lt32 x hv.1 hv.2
    simp [h1, zigzagDecode_encode]
  case sint64.vint x =>
    rw [readVarint_writeVarint]
    have h1 : zigzagEncode x < 18446744073709551616 := zigzagEncode_lt64 x hv.1 hv.2
    simp [h1, zigzagDecode_encode]
  case uint32.vnat m =>
    rw [readVarint_writeVarint]
    simp [hv]
  case uint64.vnat m =>
    rw [readVarint_writeVarint]
    simp [hv]
  case fixed32.vnat m =>
    have h4 : (toLE4 m).length = 4 := toLE4_length m
    rw [← h4, readN_exact]
    simp [fromLE_toLE4 m hv]
  case fixed64.vnat m =>
    have h8 : (toLE8 m).length = 8 := toLE8_length m
    rw [← h8, readN_exact]
    simp [fromLE_toLE8 m hv]
  case boolType.vbool b =>
    cases b <;> rw [readVarint_writeVarint] <;> simp
  case stringType.vbytes bs =>
    simp only [encLenPrefixed, List.append_assoc]
    rw [readVarint_writeVarint]
    simp [readN_exact, hv]
  case bytesType.vbytes bs =>
    simp only [encLenPrefixed, List.append_assoc]
    rw [readVarint_writeVarint]
    simp [readN_exact]

/-! ## Decoder infrastructure lemmas -/

theorem wireTypeOf_lt (t : FieldType) : wireTypeOf t < 8 := by
  cases t <;> simp [wireTypeOf]

theorem tag_div (n w : Nat) (h : w < 8) : (n * 8 + w) / 8 = n := by omega

theorem tag_mod (n w : Nat) (h : w < 8) : (n * 8 + w) % 8 = w := by omega

theorem findFd_num (desc : Desc) (n : Nat) (fd : FieldDesc)
    (h : findFd desc n = some fd) : fd.num = n := by
  have := List.find?_some h
  simpa using this

theorem readVarint_prefix : ∀ (bs : List Nat) (n : Nat) (r : List Nat),
    readVarint bs = some (n, r) → ∃ pre, bs = pre ++ r ∧ pre ≠ [] := by
  intro bs
  induction bs with
  | nil => intro n r h; simp [readVarint] at h
  | cons b rest ih =>
    intro n r h
    rw [readVarint] at h
    by_cases hb : b < 128
    · simp [hb] at h
      exact ⟨[b], by simp [h.2], by simp⟩
    · simp only [if_neg hb] at h
      cases hr : readVarint rest with
      | none => rw [hr] at h; simp at h
      | some p =>
        obtain ⟨m, r2⟩ := p
        rw [hr] at h
        simp at h
        obtain ⟨pre, hpre, _⟩ := ih m r2 hr
        exact ⟨b :: pre, by simp [hpre, h.2], by simp⟩

theorem readN_split (k : Nat) (bs c r : List Nat)
    (h : readN k bs = some (c, r)) : bs = c ++ r := by
  unfold readN at h
  by_cases hk : k ≤ bs.length
  · rw [if_pos hk] at h
    simp at h
    rw [← h.1, ← h.2]
    simp
  · rw [if_neg hk] at h; simp at h

theorem readPayloadScalar_length (t : FieldType) (bs : List Nat) (v : Value) (r : List Nat)
    (h : readPayloadScalar t bs = .ok (v, r)) : r.length ≤ bs.length := by
  cases t <;> simp only [readPayloadScalar] at h
  case fixed32 =>
    cases hrn : readN 4 bs with
    | none => rw [hrn] at h; exact absurd h (by simp)
    | some p =>
      obtain ⟨c, r2⟩ := p
      have hl := readN_length 4 bs c r2 hrn
      simp only [hrn] at h
      simp at h
      obtain ⟨_, h2⟩ := h
      subst h2
      exact hl
  case fixed64 =>
    cases hrn : readN 8 bs with
    | none => rw [hrn] at h; exact absurd h (by simp)
    | some p =>
      obtain ⟨c, r2⟩ := p
      have hl := readN_length 8 bs c r2 hrn
      simp only [hrn] at h
      simp at h
      obtain ⟨_, h2⟩ := h
      subst h2
      exact hl
  case stringType =>
    cases hrv : readVarint bs with
    | none => rw [hrv] at h; exact absurd h (by simp)
    | some p =>
      obtain ⟨len, r1⟩ := p
      simp only [hrv] at h
      have h1 := readVarint_length bs len r1 hrv
      cases hrn : readN len r1 with
      | none => simp [hrn] at h
      | some q =>
        obtain ⟨c, r2⟩ := q
        have h2 := readN_length len r1 c r2 hrn
        simp only [hrn] at h
        split_ifs at h
        simp at h
        obtain ⟨_, hr⟩ := h
        subst hr
        omega
  case bytesType =>
    cases hrv : readVarint bs with
    | none => rw [hrv] at h; exact absurd h (by simp)
    | some p =>
      obtain ⟨len, r1⟩ := p
      simp only [hrv] at h
      have h1 := readVarint_length bs len r1 hrv
      cases hrn : readN len r1 with
      | none => simp [hrn] at h
      | some q =>
        obtain ⟨c, r2⟩ := q
        have h2 := readN_length len r1 c r2 hrn
        simp only [hrn] at h
        simp at h
        obtain ⟨_, hr⟩ := h
        subst hr
        omega
  case msgType i => exact absurd h (by simp)
  all_goals
    cases hrv : readVarint bs with
    | none => rw [hrv] at h; exact absurd h (by simp)
    | some p =>
      obtain ⟨w, r1⟩ := p
      simp only [hrv] at h
      have h1 := readVarint_length bs w r1 hrv
      try split_ifs at h
      all_goals simp at h
      all_goals (obtain ⟨_, hr⟩ := h; subst hr; omega)

theorem decodeUnit_length (sub : SubDecode) (env : TypeEnv) (desc : Desc) (bs : List Nat)
    (acc acc2 : DAcc) (rest : List Nat)
    (h : decodeUnit sub env desc bs acc = .ok (acc2, rest)) : rest.length < bs.length := by
  unfold decodeUnit at h
  cases hrv : readVarint bs with
  | none => rw [hrv] at h; exact absurd h (by simp)
  | some p =>
    obtain ⟨tag, r1⟩ := p
    simp only [hrv] at h
    have h1 := readVarint_length bs tag r1 hrv
    cases hfd : findFd desc (tag / 8) with
    | none =>
      simp only [hfd] at h
      split at h
      · cases hrw : readVarint r1 with
        | none => rw [hrw] at h; exact absurd h (by simp)
        | some q =>
          obtain ⟨w2, r2⟩ := q
          simp only [hrw] at h
          have h2 := readVarint_length r1 w2 r2 hrw
          simp at h
          obtain ⟨_, hr⟩ := h
          subst hr
          omega
      · cases hrn : readN 8 r1 with
        | none => rw [hrn] at h; exact absurd h (by simp)
        | some q =>
          obtain ⟨c, r2⟩ := q
          simp only [hrn] at h
          have h2 := readN_length 8 r1 c r2 hrn
          simp at h
          obtain ⟨_, hr⟩ := h
          subst hr
          omega
      · cases hrw : readVarint r1 with
        | none => rw [hrw] at h; exact absurd h (by simp)
        | some q =>
          obtain ⟨len, r2⟩ := q
          simp only [hrw] at h
          have h2 := readVarint_length r1 len r2 hrw
          cases hrn : readN len r2 with
          | none => rw [hrn] at h; exact absurd h (by simp)
          | some q2 =>
            obtain ⟨c, r3⟩ := q2
            simp only [hrn] at h
            have h3 := readN_length len r2 c r3 hrn
            simp at h
            obtain ⟨_, hr⟩ := h
            subst hr
            omega
      · cases hrn : readN 4 r1 with
        | none => rw [hrn] at h; exact absurd h (by simp)
        | some q =>
          obtain ⟨c, r2⟩ := q
          simp only [hrn] at h
          have h2 := readN_length 4 r1 c r2 hrn
          simp at h
          obtain ⟨_, hr⟩ := h
          subst hr
          omega
      · exact absurd h (by simp)
    | some fd =>
      obtain ⟨fnum, fkind⟩ := fd
      simp only [hfd] at h
      cases fkind with
      | singular t =>
        dsimp only at h
        by_cases hwt : tag % 8 ≠ wireTypeOf t
        · rw [if_pos hwt] at h; exact absurd h (by simp)
        · rw [if_neg hwt] at h
          cases t
          all_goals first
            | (cases hrl : readVarint r1 with
              | none => rw [hrl] at h; exact absurd h (by simp)
              | some q =>
                obtain ⟨len, r2⟩ := q
                simp only [hrl] at h
                have h2 := readVarint_length r1 len r2 hrl
                cases hrn : readN len r2 with
                | none => rw [hrn] at h; exact absurd h (by simp)
                | some q2 =>
                  obtain ⟨chunk, r3⟩ := q2
                  simp only [hrn] at h
                  have h3 := readN_length len r2 chunk r3 hrn
                  cases hsub : sub (descAt env _) chunk (msgCur acc.1 fnum) with
                  | error e => rw [hsub] at h; exact absurd h (by simp)
                  | ok q3 =>
                    obtain ⟨fs2, u2⟩ := q3
                    simp only [hsub] at h
                    simp at h
                    obtain ⟨_, hr⟩ := h
                    subst hr
                    omega)
            | (cases hps : readPayloadScalar _ r1 with
              | error e => rw [hps] at h; exact absurd h (by simp)
              | ok q =>
                obtain ⟨v, r2⟩ := q
                simp only [hps] at h
                have h2 := readPayloadScalar_length _ r1 v r2 hps
                simp at h
                obtain ⟨_, hr⟩ := h
                subst hr
                omega)
      | repeated t =>
        dsimp only at h
        by_cases hwt : tag % 8 ≠ wireTypeOf t
        · rw [if_pos hwt] at h; exact absurd h (by simp)
        · rw [if_neg hwt] at h
          cases t
          all_goals first
            | (cases hrl : readVarint r1 with
              | none => rw [hrl] at h; exact absurd h (by simp)
              | some q =>
                obtain ⟨len, r2⟩ := q
                simp only [hrl] at h
                have h2 := readVarint_length r1 len r2 hrl
                cases hrn : readN len r2 with
                | none => rw [hrn] at h; exact absurd h (by simp)
                | some q2 =>
                  obtain ⟨chunk, r3⟩ := q2
                  simp only [hrn] at h
                  have h3 := readN_length len r2 chunk r3 hrn
                  cases hsub : sub (descAt env _) chunk (([], [])) with
                  | error e => rw [hsub] at h; exact absurd h (by simp)
                  | ok q3 =>
                    obtain ⟨fs2, u2⟩ := q3
                    simp only [hsub] at h
                    simp at h
                    obtain ⟨_, hr⟩ := h
                    subst hr
                    omega)
            | (cases hps : readPayloadScalar _ r1 with
              | error e => rw [hps] at h; exact absurd h (by simp)
              | ok q =>
                obtain ⟨v, r2⟩ := q
                simp only [hps] at h
                have h2 := readPayloadScalar_length _ r1 v r2 hps
                simp at h
                obtain ⟨_, hr⟩ := h
                subst hr
                omega)
      | mapField kt vt =>
        dsimp only at h
        by_cases hwt : tag % 8 ≠ 2
        · rw [if_pos hwt] at h; exact absurd h (by simp)
        · rw [if_neg hwt] at h
          cases hrl : readVarint r1 with
          | none => rw [hrl] at h; exact absurd h (by simp)
          | some q =>
            obtain ⟨len, r2⟩ := q
            simp only [hrl] at h
            have h2 := readVarint_length r1 len r2 hrl
            cases hrn : readN len r2 with
            | none => rw [hrn] at h; exact absurd h (by simp)
            | some q2 =>
              obtain ⟨chunk, r3⟩ := q2
              simp only [hrn] at h
              have h3 := readN_length len r2 chunk r3 hrn
              cases hsub : sub (mapEntryDesc kt vt) chunk ([], []) with
              | error e => rw [hsub] at h; exact absurd h (by simp)
              | ok q3 =>
                obtain ⟨efs, u2⟩ := q3
                simp only [hsub] at h
                simp at h
                obtain ⟨_, hr⟩ := h
                subst hr
                omega

theorem decodeLoop_fuel (sub : SubDecode) (env : TypeEnv) (desc : Desc) :
    ∀ (f1 : Nat) (bs : List Nat) (f2 : Nat) (acc : DAcc),
    bs.length < f1 → bs.length < f2 →
    decodeLoop sub env desc f1 bs acc = decodeLoop sub env desc f2 bs acc := by
  intro f1
  induction f1 with
  | zero => intro bs f2 acc h1 h2; omega
  | succ n ih =>
    intro bs f2 acc h1 h2
    cases f2 with
    | zero => omega
    | succ m =>
      cases bs with
      | nil => simp [decodeLoop]
      | cons b bs2 =>
        simp only [decodeLoop]
        cases hu : decodeUnit sub env desc (b :: bs2) acc with
        | error e => simp
        | ok q =>
          obtain ⟨acc2, rest⟩ := q
          have hlen := decodeUnit_length sub env desc (b :: bs2) acc acc2 rest hu
          simp only
          apply ih rest m acc2
          · simp at hlen h1 ⊢
            omega
          · simp at hlen h2 ⊢
            omega

theorem decodeMsgBody_nil (env : TypeEnv) (d : Nat) (desc : Desc) (acc : DAcc) :
    decodeMsgBody env (d + 1) desc [] acc = .ok acc := by
  simp [decodeMsgBody, decodeLoop]

theorem decodeMsgBody_step (env : TypeEnv) (d : Nat) (desc : Desc) (b : Nat) (bs rest : List Nat)
    (acc acc2 : DAcc)
    (h : decodeUnit (decodeMsgBody env d) env desc (b :: bs) acc = .ok (acc2, rest)) :
    decodeMsgBody env (d + 1) desc (b :: bs) acc = decodeMsgBody env (d + 1) desc rest acc2 := by
  have hlen := decodeUnit_length _ env desc (b :: bs) acc acc2 rest h
  simp only [decodeMsgBody]
  conv_lhs => rw [decodeLoop]
  rw [h]
  apply decodeLoop_fuel
  · simp at hlen ⊢
    omega
  · omega

theorem decodeMsgBody_step_err (env : TypeEnv) (d : Nat) (desc : Desc) (b : Nat) (bs : List Nat)
    (acc : DAcc) (e : DecodeError)
    (h : decodeUnit (decodeMsgBody env d) env desc (b :: bs) acc = .error e) :
    decodeMsgBody env (d + 1) desc (b :: bs) acc = .error e := by
  simp only [decodeMsgBody]
  rw [decodeLoop, h]

/-! ## Constructive decode-unit lemmas: one encoded unit decodes to the
expected field update -/

theorem decodeUnit_enc_scalar (sub : SubDecode) (env : TypeEnv) (desc : Desc) (n : Nat)
    (t : FieldType) (v : Value) (rest : List Nat) (acc : DAcc) (fd : FieldDesc)
    (hfd : findFd desc n = some fd) (hkind : fd.kind = .singular t)
    (hsc : validScalar t v = true) :
    decodeUnit sub env desc (encTag n (wireTypeOf t) ++ (encScalarPayload t v ++ rest)) acc =
      .ok ((setF acc.1 n v, acc.2), rest) := by
  have hnum := findFd_num desc n fd hfd
  have hwlt := wireTypeOf_lt t
  unfold decodeUnit
  rw [encTag, readVarint_writeVarint]
  simp only [tag_div n (wireTypeOf t) hwlt, tag_mod n (wireTypeOf t) hwlt, hfd, hkind]
  rw [if_neg (show ¬(wireTypeOf t ≠ wireTypeOf t) by simp)]
  cases t
  case msgType i => simp [validScalar] at hsc
  all_goals simp [readPayloadScalar_enc _ v rest hsc, hnum]

theorem decodeUnit_enc_msg (sub : SubDecode) (env : TypeEnv) (desc : Desc) (n i : Nat)
    (body rest : List Nat) (acc : DAcc) (fd : FieldDesc) (fs2 : List (Nat × Value))
    (u2 : List Nat)
    (hfd : findFd desc n = some fd) (hkind : fd.kind = .singular (.msgType i))
    (hsub : sub (descAt env i) body (msgCur acc.1 n) = .ok (fs2, u2)) :
    decodeUnit sub env desc (encTag n 2 ++ (encLenPrefixed body ++ rest)) acc =
      .ok ((setF acc.1 n (Value.vmsg fs2 u2), acc.2), rest) := by
  have hnum := findFd_num desc n fd hfd
  unfold decodeUnit
  rw [encTag, readVarint_writeVarint]
  simp only [tag_div n 2 (by omega), tag_mod n 2 (by omega), hfd, hkind]
  rw [if_neg (show ¬((2 : Nat) ≠ wireTypeOf (.msgType i)) by simp [wireTypeOf])]
  simp only [encLenPrefixed, List.append_assoc]
  rw [readVarint_writeVarint]
  simp only [readN_exact, hnum, hsub]

theorem decodeUnit_enc_repElem (sub : SubDecode) (env : TypeEnv) (desc : Desc) (n : Nat)
    (t : FieldType) (v : Value) (rest : List Nat) (acc : DAcc) (fd : FieldDesc)
    (hfd : findFd desc n = some fd) (hkind : fd.kind = .repeated t)
    (hsc : validScalar t v = true) :
    decodeUnit sub env desc (encTag n (wireTypeOf t) ++ (encScalarPayload t v ++ rest)) acc =
      .ok ((setF acc.1 n (Value.vrep (repCur acc.1 n ++ [v])), acc.2), rest) := by
  have hnum := findFd_num desc n fd hfd
  have hwlt := wireTypeOf_lt t
  unfold decodeUnit
  rw [encTag, readVarint_writeVarint]
  simp only [tag_div n (wireTypeOf t) hwlt, tag_mod n (wireTypeOf t) hwlt, hfd, hkind]
  rw [if_neg (show ¬(wireTypeOf t ≠ wireTypeOf t) by simp)]
  cases t
  case msgType i => simp [validScalar] at hsc
  all_goals simp [readPayloadScalar_enc _ v rest hsc, hnum]

theorem decodeUnit_enc_repMsg (sub : SubDecode) (env : TypeEnv) (desc : Desc) (n i : Nat)
    (body rest : List Nat) (acc : DAcc) (fd : FieldDesc) (fs2 : List (Nat × Value))
    (u2 : List Nat)
    (hfd : findFd desc n = some fd) (hkind : fd.kind = .repeated (.msgType i))
    (hsub : sub (descAt env i) body ([], []) = .ok (fs2, u2)) :
    decodeUnit sub env desc (encTag n 2 ++ (encLenPrefixed body ++ rest)) acc =
      .ok ((setF acc.1 n (Value.vrep (repCur acc.1 n ++ [Value.vmsg fs2 u2])), acc.2), rest) := by
  have hnum := findFd_num desc n fd hfd
  unfold decodeUnit
  rw [encTag, readVarint_writeVarint]
  simp only [tag_div n 2 (by omega), tag_mod n 2 (by omega), hfd, hkind]
  rw [if_neg (show ¬((2 : Nat) ≠ wireTypeOf (.msgType i)) by simp [wireTypeOf])]
  simp only [encLenPrefixed, List.append_assoc]
  rw [readVarint_writeVarint]
  simp only [readN_exact, hnum, hsub]

theorem decodeUnit_enc_mapEntry (sub : SubDecode) (env : TypeEnv) (desc : Desc) (n : Nat)
    (kt vt : FieldType) (body rest : List Nat) (acc : DAcc) (fd : FieldDesc)
    (efs : List (Nat × Value)) (u2 : List Nat)
    (hfd : findFd desc n = some fd) (hkind : fd.kind = .mapField kt vt)
    (hsub : sub (mapEntryDesc kt vt) body ([], []) = .ok (efs, u2)) :
    decodeUnit sub env desc (encTag n 2 ++ (encLenPrefixed body ++ rest)) acc =
      .ok ((setF acc.1 n
        (Value.vmap (mapPut (mapCur acc.1 n)
          ((getF efs 1).getD (typeDefaultValue kt))
          ((getF efs 2).getD (typeDefaultValue vt)))), acc.2), rest) := by
  have hnum := findFd_num desc n fd hfd
  unfold decodeUnit
  rw [encTag, readVarint_writeVarint]
  simp only [tag_div n 2 (by omega), tag_mod n 2 (by omega), hfd, hkind]
  rw [if_neg (show ¬((2 : Nat) ≠ 2) by simp)]
  simp only [encLenPrefixed, List.append_assoc]
  rw [readVarint_writeVarint]
  simp only [readN_exact, hnum, hsub]

theorem take_consumed (pre r : List Nat) :
    (pre ++ r).take ((pre ++ r).length - r.length) = pre := by
  have h : (pre ++ r).length - r.length = pre.length := by simp
  rw [h, List.take_left]

theorem decode_unknown_chunk_aux (env : TypeEnv) (d : Nat) (desc : Desc) :
    ∀ (N : Nat) (u : List Nat) (acc : DAcc) (f : Nat), u.length ≤ N →
    checkUnknownLoop desc f u = true →
    decodeMsgBody env (d + 1) desc u acc = .ok (acc.1, acc.2 ++ u) := by
  intro N
  induction N with
  | zero =>
    intro u acc f hlen hchk
    have : u = [] := by
      cases u with
      | nil => rfl
      | cons a l => simp at hlen
    subst this
    simp [decodeMsgBody_nil]
  | succ N ih =>
    intro u acc f hlen hchk
    cases u with
    | nil => simp [decodeMsgBody_nil]
    | cons b bs =>
      simp only [List.length_cons] at hlen
      cases f with
      | zero => simp [checkUnknownLoop] at hchk
      | succ fuel =>
        rw [checkUnknownLoop] at hchk
        cases hrv : readVarint (b :: bs) with
        | none => rw [hrv] at hchk; simp at hchk
        | some p =>
          obtain ⟨tag, r1⟩ := p
          simp only [hrv] at hchk
          rw [Bool.and_eq_true] at hchk
          obtain ⟨hnone, hrest⟩ := hchk
          rw [Option.isNone_iff_eq_none] at hnone
          obtain ⟨pre0, hpre0, hpre0ne⟩ := readVarint_prefix _ _ _ hrv
          rcases hw : tag % 8 with _ | _ | _ | _ | _ | _ | w6
          · -- wire type 0: varint payload
            simp only [hw] at hrest
            cases hrw : readVarint r1 with
            | none => rw [hrw] at hrest; simp at hrest
            | some q =>
              obtain ⟨w2, r2⟩ := q
              simp only [hrw] at hrest
              obtain ⟨pre1, hpre1, _⟩ := readVarint_prefix _ _ _ hrw
              have hdecomp : b :: bs = (pre0 ++ pre1) ++ r2 := by
                rw [hpre0, hpre1]; simp
              have htake : (b :: bs).take ((b :: bs).length - r2.length) = pre0 ++ pre1 := by
                rw [hdecomp]; exact take_consumed _ _
              have hu : decodeUnit (decodeMsgBody env d) env desc (b :: bs) acc =
                  .ok ((acc.1, acc.2 ++ (pre0 ++ pre1)), r2) := by
                unfold decodeUnit
                simp only [hrv, hnone, hw, hrw, htake]
              rw [decodeMsgBody_step env d desc b bs r2 acc _ hu]
              have hr2len : r2.length ≤ N := by
                have := congrArg List.length hdecomp
                simp at this
                have : pre0.length ≠ 0 := by
                  cases pre0 with
                  | nil => exact absurd rfl hpre0ne
                  | cons x xs => simp
                omega
              rw [ih r2 _ fuel hr2len hrest]
              simp [hdecomp, List.append_assoc]
          · -- wire type 1: 8-byte payload
            simp only [hw] at hrest
            cases hrn : readN 8 r1 with
            | none => rw [hrn] at hrest; simp at hrest
            | some q =>
              obtain ⟨c, r2⟩ := q
              simp only [hrn] at hrest
              have hpre1 := readN_split 8 r1 c r2 hrn
              have hdecomp : b :: bs = (pre0 ++ c) ++ r2 := by
                rw [hpre0, hpre1]; simp
              have htake : (b :: bs).take ((b :: bs).length - r2.length) = pre0 ++ c := by
                rw [hdecomp]; exact take_consumed _ _
              have hu : decodeUnit (decodeMsgBody env d) env desc (b :: bs) acc =
                  .ok ((acc.1, acc.2 ++ (pre0 ++ c)), r2) := by
                unfold decodeUnit
                simp only [hrv, hnone, hw, hrn, htake]
              rw [decodeMsgBody_step env d desc b bs r2 acc _ hu]
              have hr2len : r2.length ≤ N := by
                have := congrArg List.length hdecomp
                simp at this
                have : pre0.length ≠ 0 := by
                  cases pre0 with
                  | nil => exact absurd rfl hpre0ne
                  | cons x xs => simp
                omega
              rw [ih r2 _ fuel hr2len hrest]
              simp [hdecomp, List.append_assoc]
          · -- wire type 2: length-delimited payload
            simp only [hw] at hrest
            cases hrw : readVarint r1 with
            | none => rw [hrw] at hrest; simp at hrest
            | some q =>
              obtain ⟨len, r2⟩ := q
              simp only [hrw] at hrest
              cases hrn : readN len r2 with
              | none => rw [hrn] at hrest; simp at hrest
              | some q2 =>
                obtain ⟨c, r3⟩ := q2
                simp only [hrn] at hrest
                obtain ⟨pre1, hpre1, _⟩ := readVarint_prefix _ _ _ hrw
                have hpre2 := readN_split len r2 c r3 hrn
                have hdecomp : b :: bs = (pre0 ++ pre1 ++ c) ++ r3 := by
                  rw [hpre0, hpre1, hpre2]; simp
                have htake : (b :: bs).take ((b :: bs).length - r3.length) = pre0 ++ pre1 ++ c := by
                  rw [hdecomp]; exact take_consumed _ _
                have hu : decodeUnit (decodeMsgBody env d) env desc (b :: bs) acc =
                    .ok ((acc.1, acc.2 ++ (pre0 ++ pre1 ++ c)), r3) := by
                  unfold decodeUnit
                  simp only [hrv, hnone, hw, hrw, hrn, htake]
                rw [decodeMsgBody_step env d desc b bs r3 acc _ hu]
                have hr3len : r3.length ≤ N := by
                  have := congrArg List.length hdecomp
                  simp at this
                  have : pre0.length ≠ 0 := by
                    cases pre0 with
                    | nil => exact absurd rfl hpre0ne
                    | cons x xs => simp
                  omega
                rw [ih r3 _ fuel hr3len hrest]
                simp [hdecomp, List.append_assoc]
          · simp only [hw] at hrest; simp at hrest
          · simp only [hw] at hrest; simp at hrest
          · -- wire type 5: 4-byte payload
            simp only [hw] at hrest
            cases hrn : readN 4 r1 with
            | none => rw [hrn] at hrest; simp at hrest
            | some q =>
              obtain ⟨c, r2⟩ := q
              simp only [hrn] at hrest
              have hpre1 := readN_split 4 r1 c r2 hrn
              have hdecomp : b :: bs = (pre0 ++ c) ++ r2 := by
                rw [hpre0, hpre1]; simp
              have htake : (b :: bs).take ((b :: bs).length - r2.length) = pre0 ++ c := by
                rw [hdecomp]; exact take_consumed _ _
              have hu : decodeUnit (decodeMsgBody env d) env desc (b :: bs) acc =
                  .ok ((acc.1, acc.2 ++ (pre0 ++ c)), r2) := by
                unfold decodeUnit
                simp only [hrv, hnone, hw, hrn, htake]
              rw [decodeMsgBody_step env d desc b bs r2 acc _ hu]
              have hr2len : r2.length ≤ N := by
                have := congrArg List.length hdecomp
                simp at this
                have : pre0.length ≠ 0 := by
                  cases pre0 with
                  | nil => exact absurd rfl hpre0ne
                  | cons x xs => simp
                omega
              rw [ih r2 _ fuel hr2len hrest]
              simp [hdecomp, List.append_assoc]
          · simp only [hw] at hrest; simp at hrest

theorem decode_unknown_chunk (env : TypeEnv) (d : Nat) (desc : Desc) (u : List Nat) (acc : DAcc)
    (hchk : checkUnknown desc u = true) :
    decodeMsgBody env (d + 1) desc u acc = .ok (acc.1, acc.2 ++ u) :=
  decode_unknown_chunk_aux env d desc u.length u acc (u.length + 1) (Nat.le_refl _) hchk

/-! ## Field-wise equivalence of messages (claim C1's notion of equality:
scalars equal, repeated fields equal as ordered sequences, maps equal as
key-to-value sets via a permutation, unknown bytes equal) -/

mutual

inductive VEquiv : Value → Value → Prop where
  | int (i : Int) : VEquiv (.vint i) (.vint i)
  | natv (m : Nat) : VEquiv (.vnat m) (.vnat m)
  | boolv (b : Bool) : VEquiv (.vbool b) (.vbool b)
  | bytes (bs : List Nat) : VEquiv (.vbytes bs) (.vbytes bs)
  | msg (fs fs2 : List (Nat × Value)) (u : List Nat) :
      FieldsEquiv fs fs2 → VEquiv (.vmsg fs u) (.vmsg fs2 u)
  | rep (xs ys : List Value) : ValsEquiv xs ys → VEquiv (.vrep xs) (.vrep ys)
  | map (es mid es2 : List (Value × Value)) : es.Perm mid → EntriesEquiv mid es2 →
      VEquiv (.vmap es) (.vmap es2)

inductive FieldsEquiv : List (Nat × Value) → List (Nat × Value) → Prop where
  | nil : FieldsEquiv [] []
  | cons (n : Nat) (v v2 : Value) (r r2 : List (Nat × Value)) :
      VEquiv v v2 → FieldsEquiv r r2 → FieldsEquiv ((n, v) :: r) ((n, v2) :: r2)

inductive ValsEquiv : List Value → List Value → Prop where
  | nil : ValsEquiv [] []
  | cons (v v2 : Value) (r r2 : List Value) :
      VEquiv v v2 → ValsEquiv r r2 → ValsEquiv (v :: r) (v2 :: r2)

inductive EntriesEquiv : List (Value × Value) → List (Value × Value) → Prop where
  | nil : EntriesEquiv [] []
  | cons (k v v2 : Value) (r r2 : List (Value × Value)) :
      VEquiv v v2 → EntriesEquiv r r2 → EntriesEquiv ((k, v) :: r) ((k, v2) :: r2)

end

theorem VEquiv_scalar_eq (t : FieldType) (v w : Value)
    (hv : validScalar t v = true) (h : VEquiv v w) : w = v := by
  cases t <;> cases v <;> simp [validScalar] at hv <;> (cases h; rfl)

theorem ValsEquiv_append : ∀ (xs ys xs2 ys2 : List Value),
    ValsEquiv xs ys → ValsEquiv xs2 ys2 → ValsEquiv (xs ++ xs2) (ys ++ ys2) := by
  intro xs
  induction xs with
  | nil =>
    intro ys xs2 ys2 h1 h2
    cases h1
    simpa using h2
  | cons v r ih =>
    intro ys xs2 ys2 h1 h2
    cases h1 with
    | cons _ v2 _ r2 hv hr => exact .cons _ _ _ _ hv (ih r2 xs2 ys2 hr h2)

theorem FieldsEquiv_entry_inv (k v : Value) (efs : List (Nat × Value))
    (h : FieldsEquiv [(1, k), (2, v)] efs) :
    ∃ k2 v2, efs = [(1, k2), (2, v2)] ∧ VEquiv k k2 ∧ VEquiv v v2 := by
  cases h with
  | cons _ _ k2 _ r2 hk htail =>
    cases htail with
    | cons _ _ v2 _ r3 hv htail2 =>
      cases htail2
      exact ⟨k2, v2, rfl, hk, hv⟩

/-! ## Field-store lemmas -/

theorem getF_setF_same (fs : List (Nat × Value)) (n : Nat) (v : Value) :
    getF (setF fs n v) n = some v := by
  induction fs with
  | nil => simp [setF, getF]
  | cons p r ih =>
    obtain ⟨m, w⟩ := p
    by_cases h : m = n
    · simp [setF, getF, h]
    · simp [setF, getF, h, ih]

theorem setF_setF (fs : List (Nat × Value)) (n : Nat) (v w : Value) :
    setF (setF fs n v) n w = setF fs n w := by
  induction fs with
  | nil => simp [setF]
  | cons p r ih =>
    obtain ⟨m, u⟩ := p
    by_cases h : m = n
    · simp [setF, h]
    · simp [setF, h, ih]

theorem setF_absent (fs : List (Nat × Value)) (n : Nat) (v : Value)
    (h : getF fs n = none) : setF fs n v = fs ++ [(n, v)] := by
  induction fs with
  | nil => simp [setF]
  | cons p r ih =>
    obtain ⟨m, w⟩ := p
    by_cases hm : m = n
    · simp [getF, hm] at h
    · simp [getF, hm] at h
      simp [setF, hm, ih h]

theorem getF_append_none (fs : List (Nat × Value)) (m n : Nat) (w : Value)
    (h : getF fs m = none) (hne : m ≠ n) : getF (fs ++ [(n, w)]) m = none := by
  induction fs with
  | nil =>
    simp [getF]
    omega
  | cons p r ih =>
    obtain ⟨m2, w2⟩ := p
    by_cases hm : m2 = m
    · simp [getF, hm] at h
    · simp [getF, hm] at h ⊢
      exact ih h

theorem repCur_some (fs : List (Nat × Value)) (n : Nat) (xs : List Value)
    (h : getF fs n = some (.vrep xs)) : repCur fs n = xs := by
  simp [repCur, h]

theorem repCur_none (fs : List (Nat × Value)) (n : Nat)
    (h : getF fs n = none) : repCur fs n = [] := by
  simp [repCur, h]

theorem mapCur_some (fs : List (Nat × Value)) (n : Nat) (es : List (Value × Value))
    (h : getF fs n = some (.vmap es)) : mapCur fs n = es := by
  simp [mapCur, h]

theorem mapCur_none (fs : List (Nat × Value)) (n : Nat)
    (h : getF fs n = none) : mapCur fs n = [] := by
  simp [mapCur, h]

theorem mapPut_absent (es : List (Value × Value)) (k v : Value)
    (h : entryKeyAbsent k es = true) : mapPut es k v = es ++ [(k, v)] := by
  induction es with
  | nil => simp [mapPut]
  | cons p r ih =>
    obtain ⟨k2, v2⟩ := p
    simp [entryKeyAbsent] at h
    simp [mapPut, h.1, ih (by simp [entryKeyAbsent]; exact h.2)]

theorem VEquiv_refl_scalar (t : FieldType) (x : Value)
    (hv : validScalar t x = true) : VEquiv x x := by
  cases t <;> cases x <;> simp [validScalar] at hv <;> constructor

theorem encTag_ne_nil (n wt : Nat) : encTag n wt ≠ [] := writeVarint_ne_nil _

theorem decodeMsgBody_cons (env : TypeEnv) (d : Nat) (desc : Desc) (bytes rest : List Nat)
    (acc acc2 : DAcc) (hne : bytes ≠ [])
    (h : decodeUnit (decodeMsgBody env d) env desc bytes acc = .ok (acc2, rest)) :
    decodeMsgBody env (d + 1) desc bytes acc = decodeMsgBody env (d + 1) desc rest acc2 := by
  cases bytes with
  | nil => exact absurd rfl hne
  | cons b bs => exact decodeMsgBody_step env d desc b bs rest acc acc2 h

theorem decodeMsgBody_cons_err (env : TypeEnv) (d : Nat) (desc : Desc) (bytes : List Nat)
    (acc : DAcc) (e : DecodeError) (hne : bytes ≠ [])
    (h : decodeUnit (decodeMsgBody env d) env desc bytes acc = .error e) :
    decodeMsgBody env (d + 1) desc bytes acc = .error e := by
  cases bytes with
  | nil => exact absurd rfl hne
  | cons b bs => exact decodeMsgBody_step_err env d desc b bs acc e h

theorem encElem_scalar (sub : SubEncode) (env : TypeEnv) (t : FieldType) (x : Value)
    (h : ∀ i, t ≠ .msgType i) : encElem sub env t x = encScalarPayload t x := by
  cases t <;> first
    | (cases x <;> rfl)
    | exact absurd rfl (h _)

theorem decode_repList_chain (env : TypeEnv) (d : Nat) (desc : Desc) (n : Nat) (t : FieldType)
    (fd : FieldDesc) (hfd : findFd desc n = some fd) (hkind : fd.kind = .repeated t)
    (HIH : ∀ desc2 fs u, validFieldsAt env d desc2 fs u = true →
      ∃ fs2, FieldsEquiv fs fs2 ∧
        decodeMsgBody env d desc2 (encFieldsAt env d desc2 fs u) ([], []) = .ok (fs2, u)) :
    ∀ (xs : List Value) (acc : DAcc) (rest : List Nat), xs ≠ [] →
    validElemList (validFieldsAt env d) env t xs = true →
    ∃ xs2, ValsEquiv xs xs2 ∧
      decodeMsgBody env (d + 1) desc (encRepList (encFieldsAt env d) env n t xs ++ rest) acc =
        decodeMsgBody env (d + 1) desc rest
          (setF acc.1 n (.vrep (repCur acc.1 n ++ xs2)), acc.2) := by
  intro xs
  induction xs with
  | nil => intro acc rest hne; exact absurd rfl hne
  | cons x tail ih =>
    intro acc rest _ hval
    rw [validElemList, Bool.and_eq_true] at hval
    obtain ⟨hx, htail⟩ := hval
    have helem : ∃ x2, VEquiv x x2 ∧ ∀ (R : List Nat) (acc3 : DAcc),
        decodeUnit (decodeMsgBody env d) env desc
          (encTag n (wireTypeOf t) ++ (encElem (encFieldsAt env d) env t x ++ R)) acc3 =
          .ok ((setF acc3.1 n (.vrep (repCur acc3.1 n ++ [x2])), acc3.2), R) := by
      cases t with
      | msgType i =>
        cases x <;> first
          | (simp [validElem, validScalar] at hx; done)
          | (rename_i g u hne2
             obtain ⟨g2, hge, hdec⟩ := HIH (descAt env i) g u hx
             refine ⟨.vmsg g2 u, .msg g g2 u hge, ?_⟩
             intro R acc3
             have := decodeUnit_enc_repMsg (decodeMsgBody env d) env desc n i
               (encFieldsAt env d (descAt env i) g u) R acc3 fd g2 u hfd hkind hdec
             simpa [encElem] using this)
      | _ =>
        refine ⟨x, VEquiv_refl_scalar _ x hx, ?_⟩
        intro R acc3
        rw [encElem_scalar (encFieldsAt env d) env _ x (by simp)]
        exact decodeUnit_enc_repElem (decodeMsgBody env d) env desc n _ x R acc3 fd hfd hkind hx
    obtain ⟨x2, hxe, hunit⟩ := helem
    cases tail with
    | nil =>
      refine ⟨[x2], .cons x x2 [] [] hxe .nil, ?_⟩
      have hbytes : encRepList (encFieldsAt env d) env n t [x] ++ rest =
          encTag n (wireTypeOf t) ++ (encElem (encFieldsAt env d) env t x ++ rest) := by
        simp [encRepList]
      rw [hbytes]
      exact decodeMsgBody_cons env d desc _ rest acc _
        (by simp [encTag_ne_nil]) (hunit rest acc)
    | cons y tail2 =>
      obtain ⟨tail3, hte, hdec⟩ := ih
        (setF acc.1 n (.vrep (repCur acc.1 n ++ [x2])), acc.2) rest (by simp) htail
      refine ⟨x2 :: tail3, .cons x x2 _ _ hxe hte, ?_⟩
      have hbytes : encRepList (encFieldsAt env d) env n t (x :: y :: tail2) ++ rest =
          encTag n (wireTypeOf t) ++
            (encElem (encFieldsAt env d) env t x ++
              (encRepList (encFieldsAt env d) env n t (y :: tail2) ++ rest)) := by
        conv_lhs => rw [encRepList]
        simp [List.append_assoc]
      rw [hbytes]
      rw [decodeMsgBody_cons env d desc _ _ acc _ (by simp [encTag_ne_nil])
        (hunit (encRepList (encFieldsAt env d) env n t (y :: tail2) ++ rest) acc)]
      rw [hdec]
      simp [setF_setF, repCur_some _ _ _ (getF_setF_same acc.1 n _)]

/-! ## Map entry encoding and decoding lemmas -/

theorem beq_symm_lawful {α : Type} [BEq α] [LawfulBEq α] (x y : α) : (x == y) = (y == x) := by
  by_cases h : x = y
  · subst h; rfl
  · have hyx : ¬ y = x := fun hh => h hh.symm
    have h1 : (x == y) = false := by simp [h]
    have h2 : (y == x) = false := by simp [hyx]
    rw [h1, h2]

theorem keyEqb_symm (a b : Value) : keyEqb a b = keyEqb b a := by
  cases a <;> cases b <;> simp only [keyEqb] <;> apply beq_symm_lawful

theorem msgCur_none (fs : List (Nat × Value)) (n : Nat)
    (h : getF fs n = none) : msgCur fs n = ([], []) := by
  simp [msgCur, h]

theorem entry_key_validScalar (env : TypeEnv) (d : Nat) (kt vt : FieldType) (k v : Value)
    (hkt : isScalarKeyType kt = true)
    (hE : validFieldsAt env d (mapEntryDesc kt vt) [(1, k), (2, v)] [] = true) :
    validScalar kt k = true := by
  cases d with
  | zero => simp [validFieldsAt] at hE
  | succ d2 =>
    rw [validFieldsAt, Bool.and_eq_true] at hE
    obtain ⟨hfl, _⟩ := hE
    rw [validFieldList, Bool.and_eq_true, Bool.and_eq_true] at hfl
    obtain ⟨⟨hf1, _⟩, _⟩ := hfl
    simp only [validField, mapEntryDesc, findFd, List.find?] at hf1
    cases kt <;> simp [isScalarKeyType] at hkt <;> simpa [validElem] using hf1

/-! ## Sorted map serialization machinery -/

/-- Ordering on map entries, by key. -/
def entriesKeyLE (a b : Value × Value) : Prop := keyLE a.1 b.1 = true

instance : DecidableRel entriesKeyLE := fun a b => by
  unfold entriesKeyLE; infer_instance

/-- Map entries in ascending key order, as the encoder serializes them. -/
def sortEntries (es : List (Value × Value)) : List (Value × Value) :=
  List.insertionSort entriesKeyLE es

/-- One encoded map-entry unit: the entry as a length-delimited synthetic
two-field message. -/
def mapEntryUnit (sub : SubEncode) (env : TypeEnv) (n : Nat) (kt vt : FieldType)
    (k v : Value) : List Nat :=
  encTag n 2 ++ encLenPrefixed (sub (mapEntryDesc kt vt) [(1, k), (2, v)] [])

theorem encEntryPairs_eq_map (sub : SubEncode) (env : TypeEnv) (n : Nat) (kt vt : FieldType) :
    ∀ es : List (Value × Value),
    encEntryPairs sub env n kt vt es =
      es.map (fun e => (e.1, mapEntryUnit sub env n kt vt e.1 e.2)) := by
  intro es
  induction es with
  | nil => rfl
  | cons e r ih =>
    obtain ⟨k, v⟩ := e
    simp [encEntryPairs, mapEntryUnit, ih]

theorem orderedInsert_map_key (f : Value × Value → Value × List Nat)
    (hf : ∀ e, (f e).1 = e.1) (e : Value × Value) :
    ∀ l : List (Value × Value),
    List.orderedInsert entryKeyLE (f e) (l.map f) =
      (List.orderedInsert entriesKeyLE e l).map f := by
  intro l
  induction l with
  | nil => rfl
  | cons b l2 ih =>
    simp only [List.map_cons, List.orderedInsert]
    have hiff : entryKeyLE (f e) (f b) ↔ entriesKeyLE e b := by
      unfold entryKeyLE entriesKeyLE
      rw [hf e, hf b]
    by_cases h : entriesKeyLE e b
    · rw [if_pos (hiff.mpr h), if_pos h]
      simp
    · rw [if_neg (fun hh => h (hiff.mp hh)), if_neg h]
      simp [ih]

theorem insertionSort_map_key (f : Value × Value → Value × List Nat)
    (hf : ∀ e, (f e).1 = e.1) :
    ∀ es : List (Value × Value),
    List.insertionSort entryKeyLE (es.map f) = (List.insertionSort entriesKeyLE es).map f := by
  intro es
  induction es with
  | nil => rfl
  | cons e r ih =>
    simp only [List.map_cons, List.insertionSort, ih]
    exact orderedInsert_map_key f hf e _

/-- The encoded bytes of a map field are exactly the entry units of the
key-sorted entry list, concatenated. -/
theorem encMapField_eq_sorted (sub : SubEncode) (env : TypeEnv) (n : Nat) (kt vt : FieldType)
    (es : List (Value × Value)) :
    encSortedEntryChunks (encEntryPairs sub env n kt vt es) =
      ((sortEntries es).map (fun e => mapEntryUnit sub env n kt vt e.1 e.2)).flatten := by
  unfold encSortedEntryChunks sortEntries
  rw [encEntryPairs_eq_map]
  rw [insertionSort_map_key _ (fun e => rfl)]
  simp [List.map_map]
  rfl

theorem entryKeysNodup_pairwise : ∀ es : List (Value × Value),
    entryKeysNodup es = true ↔ es.Pairwise (fun a b => keyEqb b.1 a.1 = false) := by
  intro es
  induction es with
  | nil => simp [entryKeysNodup]
  | cons e r ih =>
    obtain ⟨k, v⟩ := e
    rw [entryKeysNodup, Bool.and_eq_true, List.pairwise_cons]
    constructor
    · intro ⟨h1, h2⟩
      refine ⟨?_, ih.mp h2⟩
      intro b hb
      have := (List.all_eq_true.mp h1) b hb
      simpa using this
    · intro ⟨h1, h2⟩
      refine ⟨?_, ih.mpr h2⟩
      rw [entryKeyAbsent, List.all_eq_true]
      intro b hb
      simpa using h1 b hb

theorem entryKeysNodup_perm (es es2 : List (Value × Value)) (hp : es.Perm es2)
    (h : entryKeysNodup es = true) : entryKeysNodup es2 = true := by
  rw [entryKeysNodup_pairwise] at h ⊢
  have hsym : ∀ {a b : Value × Value}, keyEqb b.1 a.1 = false → keyEqb a.1 b.1 = false := by
    intro a b hab
    rw [keyEqb_symm]
    exact hab
  exact (hp.pairwise_iff hsym).mp h

theorem entryKeysNodup_sort (es : List (Value × Value)) (h : entryKeysNodup es = true) :
    entryKeysNodup (sortEntries es) = true :=
  entryKeysNodup_perm es (sortEntries es) (List.perm_insertionSort entriesKeyLE es).symm h

theorem decode_mapEntries_chain (env : TypeEnv) (d : Nat) (desc : Desc) (n : Nat)
    (kt vt : FieldType) (fd : FieldDesc)
    (hfd : findFd desc n = some fd) (hkind : fd.kind = .mapField kt vt)
    (hkt : isScalarKeyType kt = true)
    (HIH : ∀ desc2 fs u, validFieldsAt env d desc2 fs u = true →
      ∃ fs2, FieldsEquiv fs fs2 ∧
        decodeMsgBody env d desc2 (encFieldsAt env d desc2 fs u) ([], []) = .ok (fs2, u)) :
    ∀ (es : List (Value × Value)) (acc : DAcc) (rest : List Nat), es ≠ [] →
    validEntryList (validFieldsAt env d) env kt vt es = true →
    (∀ e ∈ es, entryKeyAbsent e.1 (mapCur acc.1 n) = true) →
    entryKeysNodup es = true →
    ∃ es2, EntriesEquiv es es2 ∧
      decodeMsgBody env (d + 1) desc
          ((es.map (fun e => mapEntryUnit (encFieldsAt env d) env n kt vt e.1 e.2)).flatten
            ++ rest) acc =
        decodeMsgBody env (d + 1) desc rest
          (setF acc.1 n (.vmap (mapCur acc.1 n ++ es2)), acc.2) := by
  intro es
  induction es with
  | nil => intro acc rest hne; exact absurd rfl hne
  | cons e tail ih =>
    obtain ⟨k, v⟩ := e
    intro acc rest _ hval habs hnodup
    rw [validEntryList, Bool.and_eq_true] at hval
    obtain ⟨hE, htail⟩ := hval
    rw [entryKeysNodup, Bool.and_eq_true] at hnodup
    obtain ⟨hkabs, hnodtail⟩ := hnodup
    obtain ⟨efs2, hfe, hdec⟩ := HIH (mapEntryDesc kt vt) [(1, k), (2, v)] [] hE
    obtain ⟨k2, v2, hefs, hke, hve⟩ := FieldsEquiv_entry_inv k v efs2 hfe
    have hkvalid := entry_key_validScalar env d kt vt k v hkt hE
    have hkk : k2 = k := VEquiv_scalar_eq kt k k2 hkvalid hke
    rw [hkk] at hefs
    subst hefs
    have hunit : ∀ (R : List Nat) (acc3 : DAcc),
        decodeUnit (decodeMsgBody env d) env desc
          (encTag n 2 ++
            (encLenPrefixed (encFieldsAt env d (mapEntryDesc kt vt) [(1, k), (2, v)] []) ++ R))
          acc3 =
          .ok ((setF acc3.1 n (.vmap (mapPut (mapCur acc3.1 n) k v2)), acc3.2), R) := by
      intro R acc3
      have := decodeUnit_enc_mapEntry (decodeMsgBody env d) env desc n kt vt
        (encFieldsAt env d (mapEntryDesc kt vt) [(1, k), (2, v)] []) R acc3 fd
        [(1, k), (2, v2)] [] hfd hkind hdec
      simpa [getF] using this
    have hmp : ∀ acc3 : DAcc, (∀ e ∈ (k, v) :: tail, entryKeyAbsent e.1 (mapCur acc3.1 n) = true) →
        mapPut (mapCur acc3.1 n) k v2 = mapCur acc3.1 n ++ [(k, v2)] := by
      intro acc3 habs3
      exact mapPut_absent _ k v2 (habs3 (k, v) (by simp))
    cases tail with
    | nil =>
      refine ⟨[(k, v2)], .cons k v v2 [] [] hve .nil, ?_⟩
      have hbytes : (((k, v) :: ([] : List (Value × Value))).map
            (fun e => mapEntryUnit (encFieldsAt env d) env n kt vt e.1 e.2)).flatten ++ rest =
          encTag n 2 ++
            (encLenPrefixed (encFieldsAt env d (mapEntryDesc kt vt) [(1, k), (2, v)] []) ++
              rest) := by
        simp [mapEntryUnit]
      rw [hbytes]
      rw [decodeMsgBody_cons env d desc _ rest acc _ (by simp [encTag_ne_nil]) (hunit rest acc)]
      rw [hmp acc habs]
    | cons e2 tail2 =>
      have habs2 : ∀ e ∈ e2 :: tail2,
          entryKeyAbsent e.1
            (mapCur (setF acc.1 n (.vmap (mapCur acc.1 n ++ [(k, v2)])), acc.2).1 n) = true := by
        intro e he
        have hc : mapCur (setF acc.1 n (.vmap (mapCur acc.1 n ++ [(k, v2)])), acc.2).1 n =
            mapCur acc.1 n ++ [(k, v2)] :=
          mapCur_some _ _ _ (getF_setF_same acc.1 n _)
        rw [hc]
        rw [entryKeyAbsent, List.all_append]
        rw [Bool.and_eq_true]
        constructor
        · exact habs e (by simp [he])
        · have hk : keyEqb e.1 k = false := by
            have := (List.all_eq_true.mp hkabs) e he
            simpa using this
          simp [keyEqb_symm k e.1, hk]
      obtain ⟨tail3, hte, hdec2⟩ := ih
        (setF acc.1 n (.vmap (mapCur acc.1 n ++ [(k, v2)])), acc.2) rest (by simp)
        htail habs2 hnodtail
      refine ⟨(k, v2) :: tail3, .cons k v v2 _ _ hve hte, ?_⟩
      have hbytes : (((k, v) :: e2 :: tail2).map
            (fun e => mapEntryUnit (encFieldsAt env d) env n kt vt e.1 e.2)).flatten ++ rest =
          encTag n 2 ++
            (encLenPrefixed (encFieldsAt env d (mapEntryDesc kt vt) [(1, k), (2, v)] []) ++
              (((e2 :: tail2).map
                (fun e => mapEntryUnit (encFieldsAt env d) env n kt vt e.1 e.2)).flatten ++
                rest)) := by
        simp [mapEntryUnit, List.append_assoc]
      rw [hbytes]
      rw [decodeMsgBody_cons env d desc _ _ acc _ (by simp [encTag_ne_nil])
        (hunit _ acc)]
      rw [hmp acc habs]
      rw [hdec2]
      have hc : mapCur (setF acc.1 n (.vmap (mapCur acc.1 n ++ [(k, v2)])), acc.2).1 n =
          mapCur acc.1 n ++ [(k, v2)] :=
        mapCur_some _ _ _ (getF_setF_same acc.1 n _)
      rw [hc]
      simp [setF_setF]

theorem encFieldVal_singular (sub : SubEncode) (env : TypeEnv) (desc : Desc) (n : Nat)
    (v : Value) (fd : FieldDesc) (t : FieldType)
    (hfd : findFd desc n = some fd) (hk : fd.kind = .singular t) :
    encFieldVal sub env desc n v = encTag n (wireTypeOf t) ++ encElem sub env t v := by
  unfold encFieldVal
  simp only [hfd, hk]

theorem encFieldVal_repeated (sub : SubEncode) (env : TypeEnv) (desc : Desc) (n : Nat)
    (xs : List Value) (fd : FieldDesc) (t : FieldType)
    (hfd : findFd desc n = some fd) (hk : fd.kind = .repeated t) :
    encFieldVal sub env desc n (.vrep xs) = encRepList sub env n t xs := by
  unfold encFieldVal
  simp only [hfd, hk]

theorem encFieldVal_mapField (sub : SubEncode) (env : TypeEnv) (desc : Desc) (n : Nat)
    (es : List (Value × Value)) (fd : FieldDesc) (kt vt : FieldType)
    (hfd : findFd desc n = some fd) (hk : fd.kind = .mapField kt vt) :
    encFieldVal sub env desc n (.vmap es) =
      encSortedEntryChunks (encEntryPairs sub env n kt vt es) := by
  unfold encFieldVal
  simp only [hfd, hk]

theorem validField_cases (sub : SubChecker) (env : TypeEnv) (desc : Desc) (n : Nat) (v : Value)
    (h : validField sub env desc n v = true) :
    ∃ fd, findFd desc n = some fd ∧
      ((∃ t, fd.kind = .singular t ∧ validElem sub env t v = true) ∨
       (∃ t xs, fd.kind = .repeated t ∧ v = .vrep xs ∧ xs ≠ [] ∧
         validElemList sub env t xs = true) ∨
       (∃ kt vt es, fd.kind = .mapField kt vt ∧ v = .vmap es ∧ es ≠ [] ∧
         isScalarKeyType kt = true ∧ entryKeysNodup es = true ∧
         validEntryList sub env kt vt es = true)) := by
  unfold validField at h
  cases hfd : findFd desc n with
  | none =>
    simp only [hfd] at h
    exact absurd h (by simp)
  | some fd =>
    obtain ⟨fnum, fkind⟩ := fd
    simp only [hfd] at h
    cases fkind with
    | singular t => exact ⟨⟨fnum, FieldKind.singular t⟩, rfl, Or.inl ⟨t, rfl, h⟩⟩
    | repeated t =>
      cases v with
      | vrep xs =>
        rw [Bool.and_eq_true] at h
        exact ⟨⟨fnum, FieldKind.repeated t⟩, rfl,
          Or.inr (Or.inl ⟨t, xs, rfl, rfl, by simpa using h.1, h.2⟩)⟩
      | vint a => simp at h
      | vnat a => simp at h
      | vbool a => simp at h
      | vbytes a => simp at h
      | vmsg a b => simp at h
      | vmap a => simp at h
    | mapField kt vt =>
      cases v with
      | vmap es =>
        rw [Bool.and_eq_true, Bool.and_eq_true, Bool.and_eq_true] at h
        exact ⟨⟨fnum, FieldKind.mapField kt vt⟩, rfl,
          Or.inr (Or.inr ⟨kt, vt, es, rfl, rfl, by simpa using h.1.1.1,
            h.1.1.2, h.1.2, h.2⟩)⟩
      | vint a => simp at h
      | vnat a => simp at h
      | vbool a => simp at h
      | vbytes a => simp at h
      | vmsg a b => simp at h
      | vrep a => simp at h

theorem decode_fieldList_chain (env : TypeEnv) (d : Nat) (desc : Desc)
    (HIH : ∀ desc2 fs u, validFieldsAt env d desc2 fs u = true →
      ∃ fs2, FieldsEquiv fs fs2 ∧
        decodeMsgBody env d desc2 (encFieldsAt env d desc2 fs u) ([], []) = .ok (fs2, u)) :
    ∀ (fs : List (Nat × Value)) (acc : DAcc) (rest : List Nat),
    validFieldList (validFieldsAt env d) env desc fs = true →
    (∀ p ∈ fs, getF acc.1 p.1 = none) →
    ∃ fs2, FieldsEquiv fs fs2 ∧
      decodeMsgBody env (d + 1) desc
          (encFieldList (encFieldsAt env d) env desc fs ++ rest) acc =
        decodeMsgBody env (d + 1) desc rest (acc.1 ++ fs2, acc.2) := by
  intro fs
  induction fs with
  | nil =>
    intro acc rest _ _
    refine ⟨[], .nil, ?_⟩
    simp [encFieldList]
  | cons p tail ih =>
    obtain ⟨n, v⟩ := p
    intro acc rest hval habs
    rw [validFieldList, Bool.and_eq_true, Bool.and_eq_true] at hval
    obtain ⟨⟨hvf, hnabs⟩, htail⟩ := hval
    have habs0 : getF acc.1 n = none := habs (n, v) (by simp)
    obtain ⟨fd, hfd, hcase⟩ := validField_cases _ env desc n v hvf
    have hstep : ∃ v2, VEquiv v v2 ∧
        decodeMsgBody env (d + 1) desc
            (encFieldVal (encFieldsAt env d) env desc n v ++
              (encFieldList (encFieldsAt env d) env desc tail ++ rest)) acc =
          decodeMsgBody env (d + 1) desc
            (encFieldList (encFieldsAt env d) env desc tail ++ rest)
            (acc.1 ++ [(n, v2)], acc.2) := by
      rcases hcase with ⟨t, hk, helem⟩ | ⟨t, xs, hk, hv, hxs, hxl⟩ |
        ⟨kt, vt, es, hk, hv, hes, hkt, hnd, hel⟩
      · -- singular field
        rw [encFieldVal_singular _ env desc n v fd t hfd hk]
        cases t with
        | msgType i =>
          cases v with
          | vmsg g u =>
            obtain ⟨g2, hge, hdec⟩ := HIH (descAt env i) g u helem
            refine ⟨.vmsg g2 u, .msg g g2 u hge, ?_⟩
            have hu := decodeUnit_enc_msg (decodeMsgBody env d) env desc n i
              (encFieldsAt env d (descAt env i) g u)
              (encFieldList (encFieldsAt env d) env desc tail ++ rest) acc fd g2 u hfd hk
              (by rw [msgCur_none acc.1 n habs0]; exact hdec)
            have hb : encElem (encFieldsAt env d) env (.msgType i) (.vmsg g u) =
                encLenPrefixed (encFieldsAt env d (descAt env i) g u) := rfl
            have hwt : wireTypeOf (FieldType.msgType i) = 2 := rfl
            rw [hb, hwt, List.append_assoc]
            rw [decodeMsgBody_cons env d desc _ _ acc _ (by simp [encTag_ne_nil]) hu]
            rw [setF_absent acc.1 n _ habs0]
          | vint a => simp [validElem, validScalar] at helem
          | vnat a => simp [validElem, validScalar] at helem
          | vbool a => simp [validElem, validScalar] at helem
          | vbytes a => simp [validElem, validScalar] at helem
          | vrep a => simp [validElem, validScalar] at helem
          | vmap a => simp [validElem, validScalar] at helem
        | _ =>
          refine ⟨v, VEquiv_refl_scalar _ v helem, ?_⟩
          rw [encElem_scalar (encFieldsAt env d) env _ v (by simp)]
          rw [List.append_assoc]
          rw [decodeMsgBody_cons env d desc _ _ acc _ (by simp [encTag_ne_nil])
            (decodeUnit_enc_scalar (decodeMsgBody env d) env desc n _ v _ acc fd hfd hk helem)]
          rw [setF_absent acc.1 n _ habs0]
      · -- repeated field
        subst hv
        rw [encFieldVal_repeated _ env desc n xs fd t hfd hk]
        obtain ⟨xs2, hxe, hdec⟩ := decode_repList_chain env d desc n t fd hfd hk HIH xs acc
          (encFieldList (encFieldsAt env d) env desc tail ++ rest) hxs hxl
        refine ⟨.vrep xs2, .rep xs xs2 hxe, ?_⟩
        rw [hdec]
        rw [repCur_none acc.1 n habs0]
        rw [setF_absent acc.1 n _ habs0]
        simp
      · -- map field
        subst hv
        rw [encFieldVal_mapField _ env desc n es fd kt vt hfd hk]
        rw [encMapField_eq_sorted]
        have hperm : es.Perm (sortEntries es) :=
          (List.perm_insertionSort entriesKeyLE es).symm
        have hsval : validEntryList (validFieldsAt env d) env kt vt (sortEntries es) = true := by
          have hiff : ∀ l1 l2 : List (Value × Value), l1.Perm l2 →
              validEntryList (validFieldsAt env d) env kt vt l1 = true →
              validEntryList (validFieldsAt env d) env kt vt l2 = true := by
            intro l1 l2 hp h1
            have hall : ∀ l : List (Value × Value),
                validEntryList (validFieldsAt env d) env kt vt l =
                  l.all (fun e => validFieldsAt env d (mapEntryDesc kt vt)
                    [(1, e.1), (2, e.2)] []) := by
              intro l
              induction l with
              | nil => simp [validEntryList]
              | cons e r ih2 =>
                obtain ⟨a, b⟩ := e
                simp [validEntryList, ih2]
            rw [hall] at h1 ⊢
            rw [List.all_eq_true] at h1 ⊢
            intro e he
            exact h1 e (hp.mem_iff.mpr he)
          exact hiff es (sortEntries es) hperm hel
        have hsne : sortEntries es ≠ [] := by
          intro hnil
          have := hperm.length_eq
          rw [hnil] at this
          simp at this
          exact hes (by cases es with | nil => rfl | cons a b => simp at this)
        have hsabs : ∀ e ∈ sortEntries es, entryKeyAbsent e.1 (mapCur acc.1 n) = true := by
          intro e _
          rw [mapCur_none acc.1 n habs0]
          simp [entryKeyAbsent]
        obtain ⟨es2, hee, hdec⟩ := decode_mapEntries_chain env d desc n kt vt fd hfd hk hkt
          HIH (sortEntries es) acc (encFieldList (encFieldsAt env d) env desc tail ++ rest)
          hsne hsval hsabs (entryKeysNodup_sort es hnd)
        refine ⟨.vmap es2, .map es (sortEntries es) es2 hperm hee, ?_⟩
        rw [hdec]
        rw [mapCur_none acc.1 n habs0]
        rw [setF_absent acc.1 n _ habs0]
        simp
    obtain ⟨v2, hve, hstepEq⟩ := hstep
    have habs2 : ∀ p ∈ tail, getF (acc.1 ++ [(n, v2)]) p.1 = none := by
      intro p hp
      have hne : p.1 ≠ n := by
        have := (List.all_eq_true.mp hnabs) p hp
        simpa using this
      exact getF_append_none acc.1 p.1 n v2 (habs p (by simp [hp])) hne
    obtain ⟨tail2, hte, hdec⟩ := ih (acc.1 ++ [(n, v2)], acc.2) rest htail habs2
    refine ⟨(n, v2) :: tail2, .cons n v v2 tail tail2 hve hte, ?_⟩
    rw [encFieldList]
    rw [List.append_assoc]
    rw [hstepEq, hdec]
    simp

theorem decode_encode_at (env : TypeEnv) :
    ∀ (d : Nat) (desc : Desc) (fs : List (Nat × Value)) (u : List Nat),
    validFieldsAt env d desc fs u = true →
    ∃ fs2, FieldsEquiv fs fs2 ∧
      decodeMsgBody env d desc (encFieldsAt env d desc fs u) ([], []) = .ok (fs2, u) := by
  intro d
  induction d with
  | zero =>
    intro desc fs u hval
    simp [validFieldsAt] at hval
  | succ d ih =>
    intro desc fs u hval
    rw [validFieldsAt, Bool.and_eq_true] at hval
    obtain ⟨hfl, hchk⟩ := hval
    obtain ⟨fs2, hfe, hdec⟩ :=
      decode_fieldList_chain env d desc ih fs ([], []) u hfl (by intro p _; rfl)
    refine ⟨fs2, hfe, ?_⟩
    show decodeMsgBody env (d + 1) desc
      (encFieldList (encFieldsAt env d) env desc fs ++ u) ([], []) = .ok (fs2, u)
    rw [hdec]
    have := decode_unknown_chunk env d desc u (([] : List (Nat × Value)) ++ fs2, []) hchk
    simpa using this

/-! ## Merge lemmas: per-key overwrite algebra -/

theorem keyEqb_eq (a b : Value) (h : keyEqb a b = true) : a = b := by
  cases a <;> cases b <;> simp_all [keyEqb]

theorem putAll_cons (de : List (Value × Value)) (k v : Value)
    (r : List (Value × Value)) :
    putAll de ((k, v) :: r) = putAll (mapPut de k v) r := rfl

theorem getEntry_mapPut_same (k v : Value) (hkk : keyEqb k k = true) :
    ∀ es, getEntry (mapPut es k v) k = some v := by
  intro es
  induction es with
  | nil => simp [mapPut, getEntry, hkk]
  | cons e r ih =>
    obtain ⟨k2, v2⟩ := e
    cases h2 : keyEqb k2 k <;> simp [mapPut, h2, getEntry, ih]

theorem getEntry_mapPut_ne (k k2 v2 : Value) (hne : keyEqb k2 k = false) :
    ∀ es, getEntry (mapPut es k2 v2) k = getEntry es k := by
  intro es
  induction es with
  | nil => simp [mapPut, getEntry, hne]
  | cons e r ih =>
    obtain ⟨k3, v3⟩ := e
    cases h3 : keyEqb k3 k2
    · simp [mapPut, h3, getEntry, ih]
    · have hk3 : k3 = k2 := keyEqb_eq _ _ h3
      subst hk3
      simp [mapPut, h3, getEntry, hne]

theorem mapPut_self (k v : Value) :
    ∀ es, getEntry es k = some v → mapPut es k v = es := by
  intro es
  induction es with
  | nil => intro h; simp [getEntry] at h
  | cons e r ih =>
    intro h
    obtain ⟨k2, v2⟩ := e
    cases h2 : keyEqb k2 k
    · simp only [getEntry, h2] at h
      simp only [Bool.false_eq_true, if_false] at h
      simp [mapPut, h2, ih h]
    · simp only [getEntry, h2, if_true] at h
      simp only [Option.some.injEq] at h
      simp [mapPut, h2, h]

theorem mapPut_collapse (k : Value) (hkk : keyEqb k k = true) :
    ∀ es v w, mapPut (mapPut es k v) k w = mapPut es k w := by
  intro es
  induction es with
  | nil => intro v w; simp [mapPut, hkk]
  | cons e r ih =>
    intro v w
    obtain ⟨k2, v2⟩ := e
    cases h2 : keyEqb k2 k <;> simp [mapPut, h2, ih]

theorem mapPut_comm (k k2 : Value) (hne : keyEqb k2 k = false) :
    ∀ es v v2, (getEntry es k).isSome →
      mapPut (mapPut es k v) k2 v2 = mapPut (mapPut es k2 v2) k v := by
  intro es
  induction es with
  | nil => intro v v2 h; simp [getEntry] at h
  | cons e r ih =>
    intro v v2 h
    obtain ⟨k3, v3⟩ := e
    cases h3 : keyEqb k3 k
    · simp only [getEntry, h3] at h
      simp only [Bool.false_eq_true, if_false] at h
      cases h32 : keyEqb k3 k2 <;>
        simp [mapPut, h3, h32, ih _ _ h]
    · have h32 : keyEqb k3 k2 = false := by
        rw [keyEqb_eq _ _ h3, keyEqb_symm]
        exact hne
      simp [mapPut, h3, h32]

theorem getEntry_mapPut_isSome (k k2 v2 : Value) :
    ∀ es, (getEntry es k).isSome → (getEntry (mapPut es k2 v2) k).isSome := by
  intro es h
  cases h2 : keyEqb k2 k
  · rw [getEntry_mapPut_ne k k2 v2 h2]
    exact h
  · have hk2 : k2 = k := keyEqb_eq _ _ h2
    subst hk2
    rw [getEntry_mapPut_same k2 v2 h2]
    rfl

theorem getEntry_putAll_not_contains (k : Value) :
    ∀ se de, containsKeyb se k = false →
      getEntry (putAll de se) k = getEntry de k := by
  intro se
  induction se with
  | nil => intro de _; rfl
  | cons e r ih =>
    intro de hc
    obtain ⟨k2, v2⟩ := e
    simp only [containsKeyb, List.any_cons, Bool.or_eq_false_iff] at hc
    rw [putAll_cons, ih _ hc.2, getEntry_mapPut_ne k k2 v2 hc.1]

theorem getEntry_putAll_isSome (k : Value) :
    ∀ se de, (getEntry de k).isSome → (getEntry (putAll de se) k).isSome := by
  intro se
  induction se with
  | nil => intro de h; exact h
  | cons e r ih =>
    intro de h
    obtain ⟨k2, v2⟩ := e
    rw [putAll_cons]
    exact ih _ (getEntry_mapPut_isSome k k2 v2 de h)

theorem putAll_mapPut_contained (k : Value) (hkk : keyEqb k k = true) :
    ∀ r d v, (getEntry d k).isSome → containsKeyb r k = true →
      putAll (mapPut d k v) r = putAll d r := by
  intro r
  induction r with
  | nil => intro d v _ hc; simp [containsKeyb] at hc
  | cons e r2 ih =>
    intro d v hd hc
    obtain ⟨k2, v2⟩ := e
    cases h2 : keyEqb k2 k
    · simp only [containsKeyb, List.any_cons, h2, Bool.false_or] at hc
      rw [putAll_cons, putAll_cons,
        mapPut_comm k k2 h2 d v v2 hd,
        ih (mapPut d k2 v2) v (getEntry_mapPut_isSome k k2 v2 d hd) hc]
    · have hk2 : k2 = k := keyEqb_eq _ _ h2
      rw [hk2, putAll_cons, putAll_cons, mapPut_collapse k hkk]

theorem putAll_idem :
    ∀ se, (∀ e ∈ se, keyEqb e.1 e.1 = true) →
      ∀ es, putAll (putAll es se) se = putAll es se := by
  intro se
  induction se with
  | nil => intro _ es; rfl
  | cons e r ih =>
    intro hall es
    obtain ⟨k, v⟩ := e
    have hkk : keyEqb k k = true := hall (k, v) (by simp)
    have hallr : ∀ e ∈ r, keyEqb e.1 e.1 = true := fun e he => hall e (by simp [he])
    rw [putAll_cons, putAll_cons]
    have hBk : getEntry (mapPut es k v) k = some v := getEntry_mapPut_same k v hkk es
    cases hc : containsKeyb r k
    · have hAk : getEntry (putAll (mapPut es k v) r) k = some v := by
        rw [getEntry_putAll_not_contains k r _ hc, hBk]
      rw [mapPut_self k v _ hAk]
      exact ih hallr (mapPut es k v)
    · rw [putAll_mapPut_contained k hkk r _ v
        (getEntry_putAll_isSome k r _ (by rw [hBk]; rfl)) hc]
      exact ih hallr (mapPut es k v)

theorem putAll_replay :
    ∀ r se, (∀ e ∈ r, getEntry se e.1 = some e.2) → putAll se r = se := by
  intro r
  induction r with
  | nil => intro se _; rfl
  | cons e r2 ih =>
    intro se h
    obtain ⟨k, v⟩ := e
    rw [putAll_cons, mapPut_self k v se (h (k, v) (by simp))]
    exact ih se (fun e he => h e (by simp [he]))

theorem getEntry_of_nodup_mem (k v : Value) :
    ∀ se, entryKeysNodup se = true → keyEqb k k = true → (k, v) ∈ se →
      getEntry se k = some v := by
  intro se
  induction se with
  | nil => intro _ _ hm; simp at hm
  | cons e r ih =>
    intro hnd hkk hm
    obtain ⟨k2, v2⟩ := e
    rw [entryKeysNodup, Bool.and_eq_true] at hnd
    rcases List.mem_cons.mp hm with heq | hm2
    · injection heq with h1 h2
      rw [← h1, ← h2]
      simp [getEntry, hkk]
    · have hne : keyEqb k2 k = false := by
        have := (List.all_eq_true.mp hnd.1) (k, v) hm2
        simp only [Bool.not_eq_true'] at this
        rw [keyEqb_symm]
        exact this
      simp [getEntry, hne, ih hnd.2 hkk hm2]

theorem putAll_self (se : List (Value × Value))
    (hnd : entryKeysNodup se = true)
    (hall : ∀ e ∈ se, keyEqb e.1 e.1 = true) : putAll se se = se :=
  putAll_replay se se
    (fun e he => getEntry_of_nodup_mem e.1 e.2 se hnd (hall e he) he)

/-! ## Merge lemmas: field-list level -/

theorem mergeFields_nil (dst : List (Nat × Value)) : mergeFields [] dst = dst := by
  rw [mergeFields]

theorem mergeFields_cons (n : Nat) (v : Value) (r dst : List (Nat × Value)) :
    mergeFields ((n, v) :: r) dst =
      mergeFields r
        (match getF dst n with
         | some dv => setF dst n (mergeValue v dv)
         | none => dst ++ [(n, v)]) := by
  rw [mergeFields]

theorem getF_setF_ne (m n : Nat) (w : Value) (hne : m ≠ n) :
    ∀ fs, getF (setF fs m w) n = getF fs n := by
  intro fs
  induction fs with
  | nil => simp [setF, getF, hne]
  | cons p r ih =>
    obtain ⟨m2, v2⟩ := p
    by_cases h2 : m2 = m
    · subst h2
      simp [setF, getF, hne, ih]
    · simp [setF, getF, h2, ih]

theorem setF_self (n : Nat) (v : Value) :
    ∀ fs, getF fs n = some v → setF fs n v = fs := by
  intro fs
  induction fs with
  | nil => intro h; simp [getF] at h
  | cons p r ih =>
    intro h
    obtain ⟨m, w⟩ := p
    by_cases h2 : m = n
    · subst h2
      simp [getF] at h
      simp [setF, h]
    · simp only [getF, h2, if_false] at h
      simp [setF, h2, ih h]

theorem getF_append_of_none (n : Nat) :
    ∀ fs gs, getF fs n = none → getF (fs ++ gs) n = getF gs n := by
  intro fs
  induction fs with
  | nil => intro gs _; rfl
  | cons p r ih =>
    intro gs h
    obtain ⟨m, w⟩ := p
    by_cases h2 : m = n
    · subst h2
      simp [getF] at h
    · simp only [getF, h2, if_false] at h
      simp [getF, h2, ih gs h]

theorem getF_append_of_some (n : Nat) (v : Value) :
    ∀ fs gs, getF fs n = some v → getF (fs ++ gs) n = some v := by
  intro fs
  induction fs with
  | nil => intro gs h; simp [getF] at h
  | cons p r ih =>
    intro gs h
    obtain ⟨m, w⟩ := p
    by_cases h2 : m = n
    · subst h2
      simp [getF] at h
      simp [getF, h]
    · simp only [getF, h2, if_false] at h
      simp [getF, h2, ih gs h]

theorem getF_append_single_ne (m n : Nat) (w : Value) (hne : m ≠ n) (fs : List (Nat × Value)) :
    getF (fs ++ [(m, w)]) n = getF fs n := by
  cases h : getF fs n with
  | some v => exact getF_append_of_some n v fs [(m, w)] h
  | none => rw [getF_append_of_none n fs [(m, w)] h]; simp [getF, hne]

theorem getF_append_single_same (n : Nat) (v : Value) (fs : List (Nat × Value))
    (h : getF fs n = none) : getF (fs ++ [(n, v)]) n = some v := by
  rw [getF_append_of_none n fs [(n, v)] h]
  simp [getF]

theorem getF_mergeFields_absent (n : Nat) :
    ∀ src dst, numAbsent n src = true →
      getF (mergeFields src dst) n = getF dst n := by
  intro src
  induction src with
  | nil => intro dst _; rw [mergeFields_nil]
  | cons p r ih =>
    intro dst habs
    obtain ⟨m, v⟩ := p
    simp only [numAbsent, List.all_cons, Bool.and_eq_true, bne_iff_ne, ne_eq] at habs
    rw [mergeFields_cons]
    cases hg : getF dst m with
    | some dv =>
      rw [ih _ (by simp [numAbsent, habs.2])]
      exact getF_setF_ne m n _ habs.1 dst
    | none =>
      rw [ih _ (by simp [numAbsent, habs.2])]
      exact getF_append_single_ne m n v habs.1 dst

theorem numAbsent_mem (m n : Nat) (v : Value) :
    ∀ fs, numAbsent m fs = true → (n, v) ∈ fs → n ≠ m := by
  intro fs habs hm
  have := (List.all_eq_true.mp habs) (n, v) hm
  simpa using this

theorem getF_of_nodup_mem (n : Nat) (v : Value) :
    ∀ fs, nodupNums fs = true → (n, v) ∈ fs → getF fs n = some v := by
  intro fs
  induction fs with
  | nil => intro _ hm; simp at hm
  | cons p r ih =>
    intro hnd hm
    obtain ⟨m, w⟩ := p
    rw [nodupNums, Bool.and_eq_true] at hnd
    rcases List.mem_cons.mp hm with heq | hm2
    · injection heq with h1 h2
      rw [← h1, ← h2]
      simp [getF]
    · have hne : n ≠ m := numAbsent_mem m n v r hnd.1 hm2
      simp [getF, Ne.symm hne, ih hnd.2 hm2]

theorem mergeFields_replay (d : Nat)
    (HVself : ∀ v, mergeSafeV d v = true → mergeValue v v = v) :
    ∀ src dst, (∀ p ∈ src, getF dst p.1 = some p.2) →
      (∀ p ∈ src, mergeSafeV d p.2 = true) →
      mergeFields src dst = dst := by
  intro src
  induction src with
  | nil => intro dst _ _; rw [mergeFields_nil]
  | cons p r ih =>
    intro dst hget hsafe
    obtain ⟨n, v⟩ := p
    rw [mergeFields_cons]
    have hg : getF dst n = some v := hget (n, v) (by simp)
    rw [hg]
    simp only []
    rw [HVself v (hsafe (n, v) (by simp)), setF_self n v dst hg]
    exact ih dst (fun p hp => hget p (by simp [hp])) (fun p hp => hsafe p (by simp [hp]))

theorem mergeFields_idem (d : Nat)
    (HVidem : ∀ v dv, mergeSafeV d v = true →
      mergeValue v (mergeValue v dv) = mergeValue v dv)
    (HVself : ∀ v, mergeSafeV d v = true → mergeValue v v = v) :
    ∀ src, nodupNums src = true → (∀ p ∈ src, mergeSafeV d p.2 = true) →
      ∀ dst, mergeFields src (mergeFields src dst) = mergeFields src dst := by
  intro src
  induction src with
  | nil => intro _ _ dst; rw [mergeFields_nil]
  | cons p r ih =>
    intro hnd hsafe dst
    obtain ⟨n, v⟩ := p
    rw [nodupNums, Bool.and_eq_true] at hnd
    have hsafev : mergeSafeV d v = true := hsafe (n, v) (by simp)
    have hsafer : ∀ p ∈ r, mergeSafeV d p.2 = true :=
      fun p hp => hsafe p (by simp [hp])
    rw [mergeFields_cons]
    rw [mergeFields_cons n v r dst]
    cases hg : getF dst n with
    | some dv =>
      have hA : getF (mergeFields r (setF dst n (mergeValue v dv))) n =
          some (mergeValue v dv) := by
        rw [getF_mergeFields_absent n r _ hnd.1]
        exact getF_setF_same dst n _
      rw [hA]
      simp only []
      rw [HVidem v dv hsafev, setF_self n _ _ hA]
      exact ih hnd.2 hsafer _
    | none =>
      have hA : getF (mergeFields r (dst ++ [(n, v)])) n = some v := by
        rw [getF_mergeFields_absent n r _ hnd.1]
        exact getF_append_single_same n v dst hg
      rw [hA]
      simp only []
      rw [HVself v hsafev, setF_self n _ _ hA]
      exact ih hnd.2 hsafer _

theorem mergeValue_idem_self :
    ∀ d : Nat,
      (∀ v dv, mergeSafeV d v = true →
        mergeValue v (mergeValue v dv) = mergeValue v dv) ∧
      (∀ v, mergeSafeV d v = true → mergeValue v v = v) := by
  intro d
  induction d with
  | zero =>
    constructor
    · intro v dv hsafe
      cases v with
      | vint x => simp [mergeValue]
      | vnat x => simp [mergeValue]
      | vbool x => simp [mergeValue]
      | vbytes x => simp [mergeValue]
      | vmsg fs u => simp [mergeSafeV] at hsafe
      | vrep xs => simp [mergeSafeV] at hsafe
      | vmap es =>
        rw [mergeSafeV, Bool.and_eq_true] at hsafe
        have hall : ∀ e ∈ es, keyEqb e.1 e.1 = true := by
          intro e he
          exact (List.all_eq_true.mp hsafe.2) e he
        cases dv with
        | vmap de =>
          simp only [mergeValue]
          rw [putAll_idem es hall de]
        | vint x =>
          simp [mergeValue, putAll_self es hsafe.1 hall]
        | vnat x =>
          simp [mergeValue, putAll_self es hsafe.1 hall]
        | vbool x =>
          simp [mergeValue, putAll_self es hsafe.1 hall]
        | vbytes x =>
          simp [mergeValue, putAll_self es hsafe.1 hall]
        | vmsg fs u =>
          simp [mergeValue, putAll_self es hsafe.1 hall]
        | vrep xs =>
          simp [mergeValue, putAll_self es hsafe.1 hall]
    · intro v hsafe
      cases v with
      | vint x => simp [mergeValue]
      | vnat x => simp [mergeValue]
      | vbool x => simp [mergeValue]
      | vbytes x => simp [mergeValue]
      | vmsg fs u => simp [mergeSafeV] at hsafe
      | vrep xs => simp [mergeSafeV] at hsafe
      | vmap es =>
        rw [mergeSafeV, Bool.and_eq_true] at hsafe
        have hall : ∀ e ∈ es, keyEqb e.1 e.1 = true := by
          intro e he
          exact (List.all_eq_true.mp hsafe.2) e he
        simp [mergeValue, putAll_self es hsafe.1 hall]
  | succ d ih =>
    have hmsg : ∀ fs u, mergeSafeV (d + 1) (.vmsg fs u) = true →
        (∀ p ∈ fs, mergeSafeV d p.2 = true) ∧ nodupNums fs = true ∧ u = [] := by
      intro fs u hsafe
      rw [mergeSafeV, Bool.and_eq_true, Bool.and_eq_true] at hsafe
      exact ⟨fun p hp => (List.all_eq_true.mp hsafe.1.1) p hp, hsafe.1.2,
        of_decide_eq_true hsafe.2⟩
    constructor
    · intro v dv hsafe
      cases v with
      | vint x => simp [mergeValue]
      | vnat x => simp [mergeValue]
      | vbool x => simp [mergeValue]
      | vbytes x => simp [mergeValue]
      | vrep xs => simp [mergeSafeV] at hsafe
      | vmap es =>
        rw [mergeSafeV, Bool.and_eq_true] at hsafe
        have hall : ∀ e ∈ es, keyEqb e.1 e.1 = true := by
          intro e he
          exact (List.all_eq_true.mp hsafe.2) e he
        cases dv with
        | vmap de =>
          simp only [mergeValue]
          rw [putAll_idem es hall de]
        | vint x =>
          simp [mergeValue, putAll_self es hsafe.1 hall]
        | vnat x =>
          simp [mergeValue, putAll_self es hsafe.1 hall]
        | vbool x =>
          simp [mergeValue, putAll_self es hsafe.1 hall]
        | vbytes x =>
          simp [mergeValue, putAll_self es hsafe.1 hall]
        | vmsg fs u =>
          simp [mergeValue, putAll_self es hsafe.1 hall]
        | vrep xs =>
          simp [mergeValue, putAll_self es hsafe.1 hall]
      | vmsg fs u =>
        obtain ⟨hsf, hnd, hu⟩ := hmsg fs u hsafe
        subst hu
        have hreplay : mergeFields fs fs = fs :=
          mergeFields_replay d ih.2 fs fs
            (fun p hp => getF_of_nodup_mem p.1 p.2 fs hnd hp) hsf
        cases dv with
        | vmsg df du =>
          simp only [mergeValue]
          rw [mergeFields_idem d ih.1 ih.2 fs hnd hsf df]
          simp
        | vint x => simp [mergeValue, hreplay]
        | vnat x => simp [mergeValue, hreplay]
        | vbool x => simp [mergeValue, hreplay]
        | vbytes x => simp [mergeValue, hreplay]
        | vrep xs => simp [mergeValue, hreplay]
        | vmap es => simp [mergeValue, hreplay]
    · intro v hsafe
      cases v with
      | vint x => simp [mergeValue]
      | vnat x => simp [mergeValue]
      | vbool x => simp [mergeValue]
      | vbytes x => simp [mergeValue]
      | vrep xs => simp [mergeSafeV] at hsafe
      | vmap es =>
        rw [mergeSafeV, Bool.and_eq_true] at hsafe
        have hall : ∀ e ∈ es, keyEqb e.1 e.1 = true := by
          intro e he
          exact (List.all_eq_true.mp hsafe.2) e he
        simp [mergeValue, putAll_self es hsafe.1 hall]
      | vmsg fs u =>
        obtain ⟨hsf, hnd, hu⟩ := hmsg fs u hsafe
        subst hu
        have hreplay : mergeFields fs fs = fs :=
          mergeFields_replay d ih.2 fs fs
            (fun p hp => getF_of_nodup_mem p.1 p.2 fs hnd hp) hsf
        simp [mergeValue, hreplay]

/-! ## Error-path lemmas (spec 7: typed errors, whole-parse failure) -/

theorem readVarint_replicate_cont (k : Nat) :
    readVarint (List.replicate k 128) = none := by
  induction k with
  | zero => rfl
  | succ k ih => simp [List.replicate, readVarint, ih]

theorem decodeUnit_truncated_tag (sub : SubDecode) (env : TypeEnv) (desc : Desc)
    (bs : List Nat) (acc : DAcc) (h : readVarint bs = none) :
    decodeUnit sub env desc bs acc = .error .truncated := by
  unfold decodeUnit
  rw [h]

theorem decode_truncated_varint (env : TypeEnv) (desc : Desc) (k : Nat) (hk : k ≠ 0) :
    decode env desc (List.replicate k 128) = .error .truncated := by
  obtain ⟨j, rfl⟩ : ∃ j, k = j + 1 := ⟨k - 1, by omega⟩
  show decodeMsgBody env (kRecursionLimit + 1) desc _ _ = _
  apply decodeMsgBody_cons_err
  · simp [List.replicate]
  · exact decodeUnit_truncated_tag _ env desc _ _ (readVarint_replicate_cont (j + 1))

theorem readN_none (n : Nat) (bs : List Nat) (h : bs.length < n) : readN n bs = none := by
  simp [readN]
  omega

theorem decodeUnit_enc_badLength (sub : SubDecode) (env : TypeEnv) (desc : Desc) (n : Nat)
    (fd : FieldDesc) (len : Nat) (rest : List Nat) (acc : DAcc)
    (hfd : findFd desc n = some fd) (hk : fd.kind = .singular .bytesType)
    (h : rest.length < len) :
    decodeUnit sub env desc (encTag n 2 ++ (writeVarint len ++ rest)) acc =
      .error .badLength := by
  unfold decodeUnit
  rw [encTag, readVarint_writeVarint]
  simp only [tag_div n 2 (by omega), tag_mod n 2 (by omega), hfd, hk]
  rw [if_neg (show ¬((2 : Nat) ≠ wireTypeOf .bytesType) by simp [wireTypeOf])]
  simp only [readPayloadScalar, readVarint_writeVarint, readN_none len rest h]

theorem decode_badLength (len : Nat) (rest : List Nat) (h : rest.length < len) :
    decode [] d7 (encTag 2 2 ++ (writeVarint len ++ rest)) = .error .badLength := by
  show decodeMsgBody [] (kRecursionLimit + 1) d7 _ _ = _
  apply decodeMsgBody_cons_err
  · simp [encTag_ne_nil]
  · exact decodeUnit_enc_badLength _ [] d7 2 ⟨2, .singular .bytesType⟩ len rest ([], [])
      rfl rfl h

theorem decodeUnit_badWireType (sub : SubDecode) (env : TypeEnv) (desc : Desc) (n : Nat)
    (fd : FieldDesc) (t : FieldType) (w : Nat) (rest : List Nat) (acc : DAcc)
    (hfd : findFd desc n = some fd) (hk : fd.kind = .singular t)
    (hw : w < 8) (hne : w ≠ wireTypeOf t) :
    decodeUnit sub env desc (encTag n w ++ rest) acc = .error .badWireType := by
  unfold decodeUnit
  rw [encTag, readVarint_writeVarint]
  simp only [tag_div n w hw, tag_mod n w hw, hfd, hk]
  rw [if_pos hne]

theorem decode_badWireType (rest : List Nat) :
    decode [] d6 (encTag 1 5 ++ rest) = .error .badWireType := by
  show decodeMsgBody [] (kRecursionLimit + 1) d6 _ _ = _
  apply decodeMsgBody_cons_err
  · simp [encTag_ne_nil]
  · exact decodeUnit_badWireType _ [] d6 1 ⟨1, .singular .int32⟩ .int32 5 rest ([], [])
      rfl rfl (by omega) (by simp [wireTypeOf])

theorem decodeUnit_enc_msg_err (sub : SubDecode) (env : TypeEnv) (desc : Desc) (n i : Nat)
    (body rest : List Nat) (acc : DAcc) (fd : FieldDesc) (e : DecodeError)
    (hfd : findFd desc n = some fd) (hkind : fd.kind = .singular (.msgType i))
    (hsub : sub (descAt env i) body (msgCur acc.1 n) = .error e) :
    decodeUnit sub env desc (encTag n 2 ++ (encLenPrefixed body ++ rest)) acc =
      .error e := by
  have hnum := findFd_num desc n fd hfd
  unfold decodeUnit
  rw [encTag, readVarint_writeVarint]
  simp only [tag_div n 2 (by omega), tag_mod n 2 (by omega), hfd, hkind]
  rw [if_neg (show ¬((2 : Nat) ≠ wireTypeOf (.msgType i)) by simp [wireTypeOf])]
  simp only [encLenPrefixed, List.append_assoc]
  rw [readVarint_writeVarint]
  simp only [readN_exact, hnum, hsub]

/-! ## Nesting-depth lemmas (spec 5: bounded recursion) -/

theorem nestBytes_succ (k : Nat) :
    nestBytes (k + 1) = encTag 1 2 ++ (encLenPrefixed (nestBytes k) ++ []) := by
  rw [nestBytes, encLenPrefixed]
  simp

theorem decode_nest_ok : ∀ k d, k < d →
    decodeMsgBody envN d (descAt envN 0) (nestBytes k) ([], []) = .ok (nestVal k, []) := by
  intro k
  induction k with
  | zero =>
    intro d hd
    obtain ⟨j, rfl⟩ : ∃ j, d = j + 1 := ⟨d - 1, by omega⟩
    exact decodeMsgBody_nil envN j (descAt envN 0) ([], [])
  | succ k ih =>
    intro d hd
    obtain ⟨j, rfl⟩ : ∃ j, d = j + 1 := ⟨d - 1, by omega⟩
    rw [nestBytes_succ]
    rw [decodeMsgBody_cons envN j (descAt envN 0) _ [] ([], []) (nestVal (k + 1), [])
      (by simp [encTag_ne_nil])
      (decodeUnit_enc_msg (decodeMsgBody envN j) envN (descAt envN 0) 1 0
        (nestBytes k) [] ([], []) ⟨1, .singular (.msgType 0)⟩ (nestVal k) []
        rfl rfl (ih j (by omega)))]
    exact decodeMsgBody_nil envN j (descAt envN 0) _

theorem decode_nest_tooDeep : ∀ d k, d ≤ k →
    decodeMsgBody envN d (descAt envN 0) (nestBytes k) ([], []) = .error .tooDeep := by
  intro d
  induction d with
  | zero => intro k _; rfl
  | succ d ih =>
    intro k hk
    obtain ⟨j, rfl⟩ : ∃ j, k = j + 1 := ⟨k - 1, by omega⟩
    rw [nestBytes_succ]
    apply decodeMsgBody_cons_err
    · simp [encTag_ne_nil]
    · exact decodeUnit_enc_msg_err (decodeMsgBody envN d) envN (descAt envN 0) 1 0
        (nestBytes j) [] ([], []) ⟨1, .singular (.msgType 0)⟩ .tooDeep
        rfl rfl (ih j (by omega))

theorem decode_no_partial_success (rest : List Nat) :
    decode [] d6 (encTag 1 0 ++ (writeVarint 3 ++ (encTag 1 5 ++ rest))) =
      .error .badWireType := by
  show decodeMsgBody [] (kRecursionLimit + 1) d6 _ _ = _
  rw [show encTag 1 0 ++ (writeVarint 3 ++ (encTag 1 5 ++ rest)) =
    encTag 1 (wireTypeOf .int32) ++
      (encScalarPayload .int32 (.vint 3) ++ (encTag 1 5 ++ rest)) from rfl]
  rw [decodeMsgBody_cons [] kRecursionLimit d6 _ _ ([], []) _
    (by simp [encTag_ne_nil])
    (decodeUnit_enc_scalar (decodeMsgBody [] kRecursionLimit) [] d6 1 .int32 (.vint 3)
      (encTag 1 5 ++ rest) ([], []) ⟨1, .singular .int32⟩ rfl rfl (by decide))]
  apply decodeMsgBody_cons_err
  · simp [encTag_ne_nil]
  · exact decodeUnit_badWireType _ [] d6 1 ⟨1, .singular .int32⟩ .int32 5 rest _
      rfl rfl (by omega) (by simp [wireTypeOf])

theorem decodeUnit_int32_outOfRange (sub : SubDecode) (env : TypeEnv) (m : Nat)
    (rest : List Nat) (acc : DAcc) (hm : m < 2 ^ 64)
    (hout : ¬(-(2 ^ 31) ≤ fromU64 m ∧ fromU64 m < 2 ^ 31)) :
    decodeUnit sub env d6 (encTag 1 0 ++ (writeVarint m ++ rest)) acc =
      .error .outOfRange := by
  unfold decodeUnit
  rw [encTag, readVarint_writeVarint]
  simp only [tag_div 1 0 (by omega), tag_mod 1 0 (by omega)]
  rw [show findFd d6 1 = some ⟨1, .singular .int32⟩ from rfl]
  simp only []
  rw [if_neg (show ¬((0 : Nat) ≠ wireTypeOf .int32) by simp [wireTypeOf])]
  simp only [readPayloadScalar, readVarint_writeVarint]
  rw [if_pos hm, if_neg hout]

theorem decode_int32_outOfRange (m : Nat) (hm : m < 2 ^ 64)
    (hout : ¬(-(2 ^ 31) ≤ fromU64 m ∧ fromU64 m < 2 ^ 31)) :
    decode [] d6 (encTag 1 0 ++ writeVarint m) = .error .outOfRange := by
  show decodeMsgBody [] (kRecursionLimit + 1) d6 _ _ = _
  rw [show encTag 1 0 ++ writeVarint m = encTag 1 0 ++ (writeVarint m ++ []) by simp]
  apply decodeMsgBody_cons_err
  · simp [encTag_ne_nil]
  · exact decodeUnit_int32_outOfRange _ [] m [] ([], []) hm hout

/-! ## UTF-8 validation lemmas (spec 7: string fields reject invalid UTF-8,
bytes fields accept raw bytes) -/

theorem decodeUnit_string_badUtf8 (sub : SubDecode) (env : TypeEnv) (bs rest : List Nat)
    (acc : DAcc) (hbs : validUtf8 bs = false) :
    decodeUnit sub env d7 (encTag 1 2 ++ (writeVarint bs.length ++ (bs ++ rest))) acc =
      .error .badUtf8 := by
  unfold decodeUnit
  rw [encTag, readVarint_writeVarint]
  simp only [tag_div 1 2 (by omega), tag_mod 1 2 (by omega)]
  rw [show findFd d7 1 = some ⟨1, .singular .stringType⟩ from rfl]
  simp only []
  rw [if_neg (show ¬((2 : Nat) ≠ wireTypeOf .stringType) by simp [wireTypeOf])]
  simp only [readPayloadScalar, readVarint_writeVarint, readN_exact, hbs]
  simp

theorem decodeUnit_bytes_raw_ok (sub : SubDecode) (env : TypeEnv) (bs rest : List Nat)
    (acc : DAcc) :
    decodeUnit sub env d7 (encTag 2 2 ++ (writeVarint bs.length ++ (bs ++ rest))) acc =
      .ok ((setF acc.1 2 (.vbytes bs), acc.2), rest) := by
  unfold decodeUnit
  rw [encTag, readVarint_writeVarint]
  simp only [tag_div 2 2 (by omega), tag_mod 2 2 (by omega)]
  rw [show findFd d7 2 = some ⟨2, .singular .bytesType⟩ from rfl]
  simp only []
  rw [if_neg (show ¬((2 : Nat) ≠ wireTypeOf .bytesType) by simp [wireTypeOf])]
  simp only [readPayloadScalar, readVarint_writeVarint, readN_exact]

theorem decode_string_badUtf8 (bs : List Nat) (hbs : validUtf8 bs = false) :
    decode [] d7 (encTag 1 2 ++ (writeVarint bs.length ++ bs)) = .error .badUtf8 := by
  show decodeMsgBody [] (kRecursionLimit + 1) d7 _ _ = _
  rw [show encTag 1 2 ++ (writeVarint bs.length ++ bs) =
    encTag 1 2 ++ (writeVarint bs.length ++ (bs ++ [])) by simp]
  apply decodeMsgBody_cons_err
  · simp [encTag_ne_nil]
  · exact decodeUnit_string_badUtf8 _ [] bs [] ([], []) hbs

theorem decode_bytes_raw (bs : List Nat) :
    decode [] d7 (encTag 2 2 ++ (writeVarint bs.length ++ bs)) =
      .ok ([(2, .vbytes bs)], []) := by
  show decodeMsgBody [] (kRecursionLimit + 1) d7 _ _ = _
  rw [show encTag 2 2 ++ (writeVarint bs.length ++ bs) =
    encTag 2 2 ++ (writeVarint bs.length ++ (bs ++ [])) by simp]
  rw [decodeMsgBody_cons [] kRecursionLimit d7 _ [] ([], []) ([(2, .vbytes bs)], [])
    (by simp [encTag_ne_nil])
    (decodeUnit_bytes_raw_ok (decodeMsgBody [] kRecursionLimit) [] bs [] ([], []))]
  exact decodeMsgBody_nil [] kRecursionLimit d7 _

/-! ## Duplicate map key lemma (spec 3: last write wins) -/

theorem decode_dup_map_key (env : TypeEnv) (desc : Desc) (n : Nat) (fd : FieldDesc)
    (kt vt : FieldType) (k v1 v2 : Value)
    (hfd : findFd desc n = some fd) (hk : fd.kind = .mapField kt vt)
    (hkk : keyEqb k k = true)
    (hvk : validScalar kt k = true) (hv1 : validScalar vt v1 = true)
    (hv2 : validScalar vt v2 = true)
    (hval1 : validFieldsAt env kRecursionLimit (mapEntryDesc kt vt) [(1, k), (2, v1)] [] = true)
    (hval2 : validFieldsAt env kRecursionLimit (mapEntryDesc kt vt) [(1, k), (2, v2)] [] = true) :
    decode env desc
        (mapEntryUnitBytes env n kt vt k v1 ++ mapEntryUnitBytes env n kt vt k v2) =
      .ok ([(n, .vmap [(k, v2)])], []) := by
  have hnum := findFd_num desc n fd hfd
  have hsub1 : decodeMsgBody env kRecursionLimit (mapEntryDesc kt vt)
      (encFieldsAt env kRecursionLimit (mapEntryDesc kt vt) [(1, k), (2, v1)] [])
      ([], []) = .ok ([(1, k), (2, v1)], []) := by
    obtain ⟨efs1, hfe1, hdec1⟩ := decode_encode_at env kRecursionLimit _ _ _ hval1
    obtain ⟨k1, w1, hefs1, hkk1, hvv1⟩ := FieldsEquiv_entry_inv k v1 efs1 hfe1
    rw [VEquiv_scalar_eq kt k k1 hvk hkk1, VEquiv_scalar_eq vt v1 w1 hv1 hvv1] at hefs1
    rw [hefs1] at hdec1
    exact hdec1
  have hsub2 : decodeMsgBody env kRecursionLimit (mapEntryDesc kt vt)
      (encFieldsAt env kRecursionLimit (mapEntryDesc kt vt) [(1, k), (2, v2)] [])
      ([], []) = .ok ([(1, k), (2, v2)], []) := by
    obtain ⟨efs2, hfe2, hdec2⟩ := decode_encode_at env kRecursionLimit _ _ _ hval2
    obtain ⟨k2, w2, hefs2, hkk2, hvv2⟩ := FieldsEquiv_entry_inv k v2 efs2 hfe2
    rw [VEquiv_scalar_eq kt k k2 hvk hkk2, VEquiv_scalar_eq vt v2 w2 hv2 hvv2] at hefs2
    rw [hefs2] at hdec2
    exact hdec2
  show decodeMsgBody env (kRecursionLimit + 1) desc _ _ = _
  rw [mapEntryUnitBytes, mapEntryUnitBytes]
  rw [show (encTag n 2 ++
        encLenPrefixed (encFieldsAt env kRecursionLimit (mapEntryDesc kt vt)
          [(1, k), (2, v1)] [])) ++
      (encTag n 2 ++
        encLenPrefixed (encFieldsAt env kRecursionLimit (mapEntryDesc kt vt)
          [(1, k), (2, v2)] [])) =
    encTag n 2 ++
      (encLenPrefixed (encFieldsAt env kRecursionLimit (mapEntryDesc kt vt)
        [(1, k), (2, v1)] []) ++
      (encTag n 2 ++
        encLenPrefixed (encFieldsAt env kRecursionLimit (mapEntryDesc kt vt)
          [(1, k), (2, v2)] []))) by simp]
  have hu1 := decodeUnit_enc_mapEntry (decodeMsgBody env kRecursionLimit) env desc n kt vt
    (encFieldsAt env kRecursionLimit (mapEntryDesc kt vt) [(1, k), (2, v1)] [])
    (encTag n 2 ++
      encLenPrefixed (encFieldsAt env kRecursionLimit (mapEntryDesc kt vt)
        [(1, k), (2, v2)] []))
    ([], []) fd [(1, k), (2, v1)] [] hfd hk hsub1
  simp [mapCur, getF, setF, mapPut] at hu1
  rw [decodeMsgBody_cons env kRecursionLimit desc _ _ ([], []) _
    (by simp [encTag_ne_nil]) hu1]
  have hu2 := decodeUnit_enc_mapEntry (decodeMsgBody env kRecursionLimit) env desc n kt vt
    (encFieldsAt env kRecursionLimit (mapEntryDesc kt vt) [(1, k), (2, v2)] [])
    [] ([(n, .vmap [(k, v1)])], []) fd [(1, k), (2, v2)] [] hfd hk hsub2
  simp [mapCur, getF, setF, mapPut, hkk] at hu2
  rw [decodeMsgBody_cons env kRecursionLimit desc _ _ ([(n, .vmap [(k, v1)])], []) _
    (by simp [encTag_ne_nil]) hu2]
  exact decodeMsgBody_nil env kRecursionLimit desc _

/-! ## The map key order is total and transitive (spec 3) -/

theorem bytesLE_trans : ∀ x y z : List Nat,
    bytesLE x y = true → bytesLE y z = true → bytesLE x z = true := by
  intro x
  induction x with
  | nil => intro y z _ _; rfl
  | cons a x ih =>
    intro y z hab hbc
    cases y with
    | nil => simp [bytesLE] at hab
    | cons b y =>
      cases z with
      | nil => simp [bytesLE] at hbc
      | cons c z =>
        rw [bytesLE] at hab hbc ⊢
        by_cases h1 : a < b
        · rw [if_pos h1] at hab
          by_cases h2 : b < c
          · rw [if_pos (by omega : a < c)]
          · rw [if_neg h2] at hbc
            by_cases h3 : c < b
            · rw [if_pos h3] at hbc
              exact absurd hbc (by simp)
            · rw [if_pos (by omega : a < c)]
        · rw [if_neg h1] at hab
          by_cases h1b : b < a
          · rw [if_pos h1b] at hab
            exact absurd hab (by simp)
          · rw [if_neg h1b] at hab
            by_cases h2 : b < c
            · rw [if_pos (by omega : a < c)]
            · rw [if_neg h2] at hbc
              by_cases h3 : c < b
              · rw [if_pos h3] at hbc
                exact absurd hbc (by simp)
              · rw [if_neg h3] at hbc
                rw [if_neg (by omega : ¬a < c), if_neg (by omega : ¬c < a)]
                exact ih y z hab hbc

theorem bytesLE_total : ∀ x y : List Nat, bytesLE x y = true ∨ bytesLE y x = true := by
  intro x
  induction x with
  | nil => intro y; exact Or.inl rfl
  | cons a x ih =>
    intro y
    cases y with
    | nil => exact Or.inr rfl
    | cons b y =>
      rw [bytesLE, bytesLE]
      by_cases h1 : a < b
      · exact Or.inl (by rw [if_pos h1])
      · by_cases h2 : b < a
        · exact Or.inr (by rw [if_pos h2])
        · rw [if_neg h1, if_neg h2, if_neg h2, if_neg h1]
          exact ih y

theorem keyLE_trans : ∀ a b c : Value,
    keyLE a b = true → keyLE b c = true → keyLE a c = true := by
  intro a b c hab hbc
  cases a <;> cases b <;> cases c <;>
    simp_all [keyLE, valueRank] <;>
    first
      | omega
      | (exact bytesLE_trans _ _ _ hab hbc)
      | (rename_i x y z; cases x <;> cases y <;> cases z <;> simp_all)

theorem keyLE_total : ∀ a b : Value, keyLE a b = true ∨ keyLE b a = true := by
  intro a b
  cases a <;> cases b <;>
    simp [keyLE, valueRank] <;>
    first
      | omega
      | (exact bytesLE_total _ _)
      | (rename_i x y; cases x <;> cases y <;> simp)

instance : IsTotal (Value × List Nat) entryKeyLE :=
  ⟨fun a b => keyLE_total a.1 b.1⟩

instance : IsTrans (Value × List Nat) entryKeyLE :=
  ⟨fun a b c hab hbc => keyLE_trans a.1 b.1 c.1 hab hbc⟩

/-! ## Claim theorems -/

/-- C1: for every valid message, decoding the result of encoding it yields
a message field-wise equal to it — scalars equal, repeated fields equal as
ordered sequences, maps equal as key-to-value sets (a permutation of
entries), and unknown fields preserved byte-for-byte. -/
theorem C1_roundtrip_fieldwise (env : TypeEnv) (desc : Desc)
    (fs : List (Nat × Value)) (u : List Nat)
    (hval : validMessage env desc fs u = true) :
    ∃ fs2, FieldsEquiv fs fs2 ∧
      decode env desc (encode env desc fs u) = .ok (fs2, u) :=
  decode_encode_at env (kRecursionLimit + 1) desc fs u hval

theorem C1_roundtrip_fieldwise_witness :
    validMessage e0 d0 m0 u0 = true ∧
    ∃ fs2, FieldsEquiv m0 fs2 ∧
      decode e0 d0 (encode e0 d0 m0 u0) = .ok (fs2, u0) :=
  ⟨rfl, C1_roundtrip_fieldwise e0 d0 m0 u0 rfl⟩

/-- C2: every malformed construct — unterminated varint, declared length
exceeding the remaining bytes, wire type mismatching the target field,
nesting beyond the recursion limit — fails the whole decode with its typed
error, while nesting up to the limit succeeds; a valid field followed by a
malformed one still fails the entire parse (no partial success). -/
theorem C2_malformed_rejected :
    (∀ k : Nat, k ≠ 0 →
      decode [] d6 (List.replicate k 128) = .error .truncated) ∧
    (∀ (len : Nat) (rest : List Nat), rest.length < len →
      decode [] d7 (encTag 2 2 ++ (writeVarint len ++ rest)) = .error .badLength) ∧
    (∀ rest : List Nat,
      decode [] d6 (encTag 1 5 ++ rest) = .error .badWireType) ∧
    (∀ k : Nat, k ≤ kRecursionLimit →
      decode envN (descAt envN 0) (nestBytes k) = .ok (nestVal k, [])) ∧
    (decode envN (descAt envN 0) (nestBytes (kRecursionLimit + 1)) =
      .error .tooDeep) ∧
    (∀ rest : List Nat,
      decode [] d6 (encTag 1 0 ++ (writeVarint 3 ++ (encTag 1 5 ++ rest))) =
        .error .badWireType) :=
  ⟨decode_truncated_varint [] d6, decode_badLength, decode_badWireType,
   fun k hk => decode_nest_ok k (kRecursionLimit + 1) (by omega),
   decode_nest_tooDeep (kRecursionLimit + 1) (kRecursionLimit + 1) (Nat.le_refl _),
   decode_no_partial_success⟩

theorem C2_malformed_rejected_witness :
    decode [] d6 (List.replicate 3 128) = .error .truncated ∧
    decode [] d7 (encTag 2 2 ++ (writeVarint 5 ++ [])) = .error .badLength ∧
    decode [] d6 (encTag 1 5 ++ []) = .error .badWireType ∧
    decode envN (descAt envN 0) (nestBytes kRecursionLimit) =
      .ok (nestVal kRecursionLimit, []) ∧
    decode envN (descAt envN 0) (nestBytes (kRecursionLimit + 1)) =
      .error .tooDeep ∧
    decode [] d6 (encTag 1 0 ++ (writeVarint 3 ++ (encTag 1 5 ++ []))) =
      .error .badWireType :=
  ⟨C2_malformed_rejected.1 3 (by decide),
   C2_malformed_rejected.2.1 5 [] (by decide),
   C2_malformed_rejected.2.2.1 [],
   C2_malformed_rejected.2.2.2.1 kRecursionLimit (Nat.le_refl _),
   C2_malformed_rejected.2.2.2.2.1,
   C2_malformed_rejected.2.2.2.2.2 []⟩

/-- C3: serializing a map field emits its entries as a permutation of the
populated entries sorted ascending by key under the key order (numeric
ascending, false before true, lexicographic bytes); concretely, a map
populated with string keys c, a, b serializes identically to one populated
a, b, c. -/
theorem C3_map_serialization_sorted :
    (∀ (sub : SubEncode) (env : TypeEnv) (desc : Desc) (n : Nat)
      (fd : FieldDesc) (kt vt : FieldType) (es : List (Value × Value)),
      findFd desc n = some fd → fd.kind = .mapField kt vt →
      ∃ pairs2, (encEntryPairs sub env n kt vt es).Perm pairs2 ∧
        pairs2.Sorted entryKeyLE ∧
        encFieldVal sub env desc n (.vmap es) = (pairs2.map Prod.snd).flatten) ∧
    (encode [] dC3
        [(1, .vmap [(.vbytes [99], .vnat 1), (.vbytes [97], .vnat 1),
          (.vbytes [98], .vnat 1)])] [] =
      encode [] dC3
        [(1, .vmap [(.vbytes [97], .vnat 1), (.vbytes [98], .vnat 1),
          (.vbytes [99], .vnat 1)])] []) := by
  constructor
  · intro sub env desc n fd kt vt es hfd hk
    refine ⟨List.insertionSort entryKeyLE (encEntryPairs sub env n kt vt es),
      (List.perm_insertionSort _ _).symm, List.sorted_insertionSort _ _, ?_⟩
    rw [encFieldVal_mapField sub env desc n es fd kt vt hfd hk]
    rfl
  · rfl

theorem C3_map_serialization_sorted_witness :
    ∃ pairs2,
      (encEntryPairs (encFieldsAt [] kRecursionLimit) [] 1 .stringType .uint32
        [(.vbytes [99], .vnat 1), (.vbytes [97], .vnat 1)]).Perm pairs2 ∧
      pairs2.Sorted entryKeyLE ∧
      encFieldVal (encFieldsAt [] kRecursionLimit) [] dC3 1
          (.vmap [(.vbytes [99], .vnat 1), (.vbytes [97], .vnat 1)]) =
        (pairs2.map Prod.snd).flatten :=
  C3_map_serialization_sorted.1 (encFieldsAt [] kRecursionLimit) [] dC3 1
    ⟨1, .mapField .stringType .uint32⟩ .stringType .uint32
    [(.vbytes [99], .vnat 1), (.vbytes [97], .vnat 1)] rfl rfl

/-- C4: decoding a stream with two map entries carrying the same key and
different values yields exactly one entry for that key, holding the
second-encountered value. -/
theorem C4_duplicate_map_key_last_wins (env : TypeEnv) (desc : Desc) (n : Nat)
    (fd : FieldDesc) (kt vt : FieldType) (k v1 v2 : Value)
    (hfd : findFd desc n = some fd) (hk : fd.kind = .mapField kt vt)
    (hkk : keyEqb k k = true)
    (hvk : validScalar kt k = true) (hv1 : validScalar vt v1 = true)
    (hv2 : validScalar vt v2 = true)
    (hval1 : validFieldsAt env kRecursionLimit (mapEntryDesc kt vt)
      [(1, k), (2, v1)] [] = true)
    (hval2 : validFieldsAt env kRecursionLimit (mapEntryDesc kt vt)
      [(1, k), (2, v2)] [] = true) :
    decode env desc
        (mapEntryUnitBytes env n kt vt k v1 ++ mapEntryUnitBytes env n kt vt k v2) =
      .ok ([(n, .vmap [(k, v2)])], []) :=
  decode_dup_map_key env desc n fd kt vt k v1 v2 hfd hk hkk hvk hv1 hv2 hval1 hval2

theorem C4_duplicate_map_key_last_wins_witness :
    decode e0 d0
        (mapEntryUnitBytes e0 4 .int32 .stringType (.vint 9) (.vbytes [97]) ++
          mapEntryUnitBytes e0 4 .int32 .stringType (.vint 9) (.vbytes [98])) =
      .ok ([(4, .vmap [(.vint 9, .vbytes [98])])], []) :=
  C4_duplicate_map_key_last_wins e0 d0 4 ⟨4, .mapField .int32 .stringType⟩
    .int32 .stringType (.vint 9) (.vbytes [97]) (.vbytes [98])
    rfl rfl rfl (by decide) rfl rfl rfl rfl

/-- C5: a well-formed unknown-field byte buffer decodes to a message with
no known fields and exactly those bytes retained, and re-encoding emits
them verbatim; in general the encoder emits the unknown buffer byte-for-
byte after all known fields. -/
theorem C5_unknown_bytes_survive :
    (∀ (env : TypeEnv) (desc : Desc) (u : List Nat), checkUnknown desc u = true →
      decode env desc u = .ok ([], u) ∧ encode env desc [] u = u) ∧
    (∀ (env : TypeEnv) (desc : Desc) (fs : List (Nat × Value)) (u : List Nat),
      encode env desc fs u =
        encFieldList (encFieldsAt env kRecursionLimit) env desc fs ++ u) := by
  constructor
  · intro env desc u hchk
    exact ⟨decode_unknown_chunk env kRecursionLimit desc u ([], []) hchk, rfl⟩
  · intro env desc fs u
    rfl

theorem C5_unknown_bytes_survive_witness :
    checkUnknown d0 u0 = true ∧
    decode e0 d0 u0 = .ok ([], u0) ∧ encode e0 d0 [] u0 = u0 :=
  ⟨rfl, C5_unknown_bytes_survive.1 e0 d0 u0 rfl⟩

/-- C6: any varint payload outside the 32-bit signed range — in particular
2147483648 — fails an int32 field with the out-of-range error rather than
being truncated or coerced, while the boundary values 2147483647 and
-2147483648 decode successfully and round-trip to the same bytes. -/
theorem C6_int32_boundary :
    (∀ m : Nat, m < 2 ^ 64 → ¬(-(2 ^ 31) ≤ fromU64 m ∧ fromU64 m < 2 ^ 31) →
      decode [] d6 (encTag 1 0 ++ writeVarint m) = .error .outOfRange) ∧
    (decode [] d6 (encTag 1 0 ++ writeVarint (2 ^ 31)) = .error .outOfRange) ∧
    (decode [] d6 (encTag 1 0 ++ writeVarint (2 ^ 31 - 1)) =
        .ok ([(1, .vint (2 ^ 31 - 1))], []) ∧
      encode [] d6 [(1, .vint (2 ^ 31 - 1))] [] =
        encTag 1 0 ++ writeVarint (2 ^ 31 - 1)) ∧
    (decode [] d6 (encTag 1 0 ++ writeVarint (toU64 (-(2 ^ 31)))) =
        .ok ([(1, .vint (-(2 ^ 31)))], []) ∧
      encode [] d6 [(1, .vint (-(2 ^ 31)))] [] =
        encTag 1 0 ++ writeVarint (toU64 (-(2 ^ 31)))) :=
  ⟨decode_int32_outOfRange, by rfl, ⟨by rfl, by rfl⟩, ⟨by rfl, by rfl⟩⟩

theorem C6_int32_boundary_witness :
    decode [] d6 (encTag 1 0 ++ writeVarint (2 ^ 31 + 5)) = .error .outOfRange :=
  C6_int32_boundary.1 (2 ^ 31 + 5) (by decide) (by decide)

/-- C7: every byte list that is not valid UTF-8 is rejected with the
UTF-8 error when parsed into the string field of d7, while the identical
raw bytes parse successfully into the bytes field. -/
theorem C7_utf8_string_vs_bytes (bs : List Nat) (h : validUtf8 bs = false) :
    decode [] d7 (encTag 1 2 ++ (writeVarint bs.length ++ bs)) = .error .badUtf8 ∧
    decode [] d7 (encTag 2 2 ++ (writeVarint bs.length ++ bs)) =
      .ok ([(2, .vbytes bs)], []) :=
  ⟨decode_string_badUtf8 bs h, decode_bytes_raw bs⟩

theorem C7_utf8_string_vs_bytes_witness :
    decode [] d7 (encTag 1 2 ++ (writeVarint [192].length ++ [192])) =
      .error .badUtf8 ∧
    decode [] d7 (encTag 2 2 ++ (writeVarint [192].length ++ [192])) =
      .ok ([(2, .vbytes [192])], []) :=
  C7_utf8_string_vs_bytes [192] rfl

/-- C8 as stated is refuted: the source message with no fields at all (so
certainly no repeated fields) but a nonempty unknown buffer makes the
double merge differ from the single merge, because unknown buffers are
concatenated on every merge. -/
theorem C8_merge_counterexample :
    noRepV 1 (.vmsg [] [7]) = true ∧
    mergeMsg ([], [7]) (mergeMsg ([], [7]) ([], [])) ≠ mergeMsg ([], [7]) ([], []) := by
  refine ⟨rfl, fun h => ?_⟩
  have h2 := congrArg Prod.snd h
  simp [mergeMsg, mergeFields_nil] at h2

/-- C8 amended: merging twice is the same as merging once provided the
source additionally has empty unknown buffers throughout (plus unique
field numbers and scalar, duplicate-free map keys); on repeated fields the
second merge appends the source elements again. -/
theorem C8_merge_idempotence_amended :
    (∀ (d : Nat) (M N : List (Nat × Value) × List Nat),
      mergeSafeV d (.vmsg M.1 M.2) = true →
      mergeMsg M (mergeMsg M N) = mergeMsg M N) ∧
    (∀ sx dx : List Value,
      mergeValue (.vrep sx) (mergeValue (.vrep sx) (.vrep dx)) =
        .vrep (dx ++ sx ++ sx)) := by
  constructor
  · intro d M N hsafe
    cases d with
    | zero => simp [mergeSafeV] at hsafe
    | succ d =>
      rw [mergeSafeV, Bool.and_eq_true, Bool.and_eq_true] at hsafe
      have hu : M.2 = [] := of_decide_eq_true hsafe.2
      have hsf : ∀ p ∈ M.1, mergeSafeV d p.2 = true :=
        fun p hp => (List.all_eq_true.mp hsafe.1.1) p hp
      unfold mergeMsg
      rw [mergeFields_idem d (mergeValue_idem_self d).1 (mergeValue_idem_self d).2
        M.1 hsafe.1.2 hsf N.1]
      rw [hu]
      simp
  · intro sx dx
    simp [mergeValue]

theorem C8_merge_idempotence_amended_witness :
    mergeSafeV 2 (.vmsg [(1, .vint 5), (4, .vmap [(.vint 1, .vbytes [97])])] []) = true ∧
    mergeMsg ([(1, .vint 5), (4, .vmap [(.vint 1, .vbytes [97])])], [])
        (mergeMsg ([(1, .vint 5), (4, .vmap [(.vint 1, .vbytes [97])])], [])
          ([(1, .vint 9)], [3])) =
      mergeMsg ([(1, .vint 5), (4, .vmap [(.vint 1, .vbytes [97])])], [])
        ([(1, .vint 9)], [3]) :=
  ⟨rfl, C8_merge_idempotence_amended.1 2
    ([(1, .vint 5), (4, .vmap [(.vint 1, .vbytes [97])])], []) ([(1, .vint 9)], [3]) rfl⟩

/-- C9: the default a field reports follows the declared syntax — proto3
uses the implicit type defaults (0, empty string, false, empty message)
regardless of the recorded default, proto2 and editions honor the recorded
field-level default; and the Rust-codegen DefaultValue renders an enum
field's default from the descriptor-recorded default value, which is
independent of the enum's first listed value. -/
theorem C9_default_value_policy :
    (∀ (t : FieldType) (r : Value), fieldDefault .proto3 t r = typeDefaultValue t) ∧
    (∀ (s : SynKind) (t : FieldType) (r : Value),
      s ≠ .proto3 → fieldDefault s t r = r) ∧
    (typeDefaultValue .int32 = .vint 0 ∧ typeDefaultValue .stringType = .vbytes [] ∧
      typeDefaultValue .boolType = .vbool false ∧
      typeDefaultValue (.msgType 0) = .vmsg [] []) ∧
    (∀ f : RsField, f.ftype = .tEnum →
      DefaultValue f = some (f.enumTypePath ++ "::" ++ f.enumValueName)) := by
  refine ⟨fun t r => rfl, ?_, ⟨rfl, rfl, rfl, rfl⟩, ?_⟩
  · intro s t r hs
    cases s with
    | proto2 => rfl
    | proto3 => exact absurd rfl hs
    | editions => rfl
  · intro f hf
    simp only [DefaultValue, hf]

theorem C9_default_value_policy_witness :
    fieldDefault .proto2 .int32 (.vint 7) = .vint 7 ∧
    DefaultValue ⟨.tEnum, .nan, .nan, 0, 0, 0, 0, false, [], "SomeEnum", "SECOND"⟩ =
      some ("SomeEnum" ++ "::" ++ "SECOND") :=
  ⟨C9_default_value_policy.2.1 .proto2 .int32 (.vint 7) (by decide),
   C9_default_value_policy.2.2.2 ⟨.tEnum, .nan, .nan, 0, 0, 0, 0, false, [],
     "SomeEnum", "SECOND"⟩ rfl⟩

/-- C10: DefaultValue produces a rendered default exactly for the field
types that are neither message nor group; every arm of the type switch —
both float classifications including NaN and the infinities, the integer
kinds, bool, string, bytes, enum — yields a value, and only the
TYPE_GROUP/TYPE_MESSAGE arm reaches the fatal branch. -/
theorem C10_default_value_total_nonmessage (f : RsField) :
    (DefaultValue f).isSome = true ↔
      (f.ftype ≠ .tGroup ∧ f.ftype ≠ .tMessage) := by
  obtain ⟨t, dd, df, i32, i64, u32, u64, b, s, ep, en⟩ := f
  cases t <;> simp [DefaultValue] <;>
    first
      | (cases dd <;> simp)
      | (cases df <;> simp)

theorem C10_default_value_total_nonmessage_witness :
    (DefaultValue ⟨.tDouble, .nan, .nan, 0, 0, 0, 0, false, [], "", ""⟩).isSome = true :=
  (C10_default_value_total_nonmessage
    ⟨.tDouble, .nan, .nan, 0, 0, 0, 0, false, [], "", ""⟩).mpr (by decide)
